import Mathlib

/-!
Shallow embedding of the Dai dependency-upgrade advisor's version-constraint
and range-matching engine (Go sources `pkg/semver/version.go`,
`pkg/npm/registry.go`, `pkg/security/nvd_client.go`).

Conventions of the embedding:
* Go struct `semver.Version` becomes the structure `Version`; the Go `int`
  components are modelled as `Nat` (every component the code ever produces
  comes from parsing a run of decimal digits, and the data model declares
  them non-negative; `strconv.Atoi` overflow is not modelled).
* Go string manipulation is embedded over `List Char` (`String.data`);
  Go compares strings byte by byte, which over valid UTF-8 coincides with
  the codepoint order used here.
* Fallible Go functions returning `(T, error)` become `Option T` or
  `Except String T`.
* The anchored regular expressions of the source are embedded as
  deterministic recursive matchers; determinism is justified inline where
  the greedy subgroup choices of the regex are forced.
-/

/-- Go struct `Version` from `pkg/semver/version.go`. -/
structure Version where
  Major : Nat
  Minor : Nat
  Patch : Nat
  Prerelease : String
  Build : String
deriving Repr, DecidableEq

/-- Byte/codepoint-lexicographic strict order on strings, as Go's `<` on
`string` values (embedded over the character lists). -/
def strLt : List Char → List Char → Bool
  | [], [] => false
  | [], _ :: _ => true
  | _ :: _, [] => false
  | x :: xs, y :: ys => if x < y then true else if x = y then strLt xs ys else false

/-- Go `Compare` (`pkg/semver/version.go`): `-1` if `v1 < v2`, `0` if equal,
`1` if `v1 > v2`; build metadata is never consulted. -/
def Compare (v1 v2 : Version) : Int :=
  if v1.Major ≠ v2.Major then (if v1.Major > v2.Major then 1 else -1)
  else if v1.Minor ≠ v2.Minor then (if v1.Minor > v2.Minor then 1 else -1)
  else if v1.Patch ≠ v2.Patch then (if v1.Patch > v2.Patch then 1 else -1)
  else if v1.Prerelease = "" ∧ v2.Prerelease ≠ "" then 1
  else if v1.Prerelease ≠ "" ∧ v2.Prerelease = "" then -1
  else if v1.Prerelease = "" ∧ v2.Prerelease = "" then 0
  else if strLt v1.Prerelease.data v2.Prerelease.data then -1
  else if strLt v2.Prerelease.data v1.Prerelease.data then 1
  else 0

/-- Character class `[0-9A-Za-z-.]` of the semver regex (prerelease and
build identifiers). -/
def isIdentChar (c : Char) : Bool := c.isDigit || c.isAlpha || c = '-' || c = '.'

/-- Maximal-prefix split for a character predicate (the behaviour of a
greedy character-class run in the anchored regex). -/
def spanP (p : Char → Bool) : List Char → List Char × List Char
  | [] => ([], [])
  | c :: t => if p c then ((spanP p t).1.cons c, (spanP p t).2) else ([], c :: t)

/-- Decimal value of a digit run, as `strconv.Atoi` on `\d+` (overflow not
modelled). -/
def natOfDigits (ds : List Char) : Nat := ds.foldl (fun a c => 10 * a + (c.toNat - 48)) 0

/-- One optional regex group `(?:mark(class+))?`: taken exactly when the
mark is next and at least one class character follows, in which case the
greedy run is captured and the rest returned. -/
def optGroup (mark : Char) (p : Char → Bool) (l : List Char) : List Char × List Char :=
  match l with
  | [] => ([], l)
  | c :: t =>
    if c = mark then
      if (spanP p t).1.isEmpty then ([], l) else spanP p t
    else ([], l)

/-- The optional leading `v?` of the semver regex: consumed exactly when
the first character is `v` (a digit must follow either way). -/
def stripV : List Char → List Char
  | [] => []
  | c :: t => if c = 'v' then t else c :: t

/-- Embedding of the anchored Go regex
`^v?(\d+)(?:\.(\d+))?(?:\.(\d+))?(?:-([0-9A-Za-z-.]+))?(?:\+([0-9A-Za-z-.]+))?$`
combined with the subsequent field assembly of `Parse`: absent minor/patch
groups default to `0`, absent prerelease/build groups give `""`.
The deterministic greedy strategy is faithful to the regex: every digit or
identifier run is forced to be maximal (a shorter run leaves behind a
character no later regex element can consume), and each optional group is
taken exactly when its leading mark and a non-empty run follow. -/
def matchSemver (l : List Char) : Option Version :=
  let mj := spanP Char.isDigit (stripV l)
  if mj.1.isEmpty then none else
  let mn := optGroup '.' Char.isDigit mj.2
  let pa := optGroup '.' Char.isDigit mn.2
  let pr := optGroup '-' isIdentChar pa.2
  let bu := optGroup '+' isIdentChar pr.2
  if bu.2.isEmpty then
    some ⟨natOfDigits mj.1, natOfDigits mn.1, natOfDigits pa.1,
          String.mk pr.1, String.mk bu.1⟩
  else none

/-- Whitespace trimming at both ends, as Go `strings.TrimSpace` (restricted
to the ASCII whitespace that can actually occur in version strings). -/
def trimSpace (l : List Char) : List Char :=
  ((l.dropWhile Char.isWhitespace).reverse.dropWhile Char.isWhitespace).reverse

/-- Go `strings.TrimPrefix`: drop the prefix if present, else leave the
string unchanged. -/
def dropPre (p l : List Char) : List Char := if p.isPrefixOf l then l.drop p.length else l

/-- Go `NormalizeVersion` (`pkg/semver/version.go`): trim spaces, strip one
occurrence of each range indicator in the source's fixed order, trim again. -/
def normalizeL (l : List Char) : List Char :=
  trimSpace (dropPre ['='] (dropPre ['<'] (dropPre ['<', '=']
    (dropPre ['>'] (dropPre ['>', '='] (dropPre ['~'] (dropPre ['^'] (trimSpace l))))))))

/-- Go `NormalizeVersion`, at `String` level. -/
def NormalizeVersion (s : String) : String := String.mk (normalizeL s.data)

/-- Go `Parse` (`pkg/semver/version.go`) at character-list level; `none`
models the `invalid semver` error. -/
def parseL (l : List Char) : Option Version := matchSemver (normalizeL l)

/-- Go `Parse` (`pkg/semver/version.go`); `none` models the
`invalid semver` error. -/
def Parse (s : String) : Option Version := parseL s.data

/-- Fuel-driven decimal rendering: with fuel exceeding `n` it produces the
digits of `n`, most significant first. Structural recursion on fuel keeps
the definition kernel-computable. -/
def natToCharsF : Nat → Nat → List Char
  | 0, _ => []
  | f + 1, n =>
    if n < 10 then [Char.ofNat (48 + n)]
    else natToCharsF f (n / 10) ++ [Char.ofNat (48 + n % 10)]

/-- Digits of `n` in decimal, most significant first, as Go
`fmt.Sprintf` with verb `%d` renders a non-negative `int`. -/
def natToChars (n : Nat) : List Char := natToCharsF (n + 1) n

/-- Character-list form of Go's `(*Version).String()`. -/
def renderL (v : Version) : List Char :=
  natToChars v.Major ++ '.' :: natToChars v.Minor ++ '.' :: natToChars v.Patch
    ++ (if v.Prerelease = "" then [] else '-' :: v.Prerelease.data)
    ++ (if v.Build = "" then [] else '+' :: v.Build.data)

/-- Go `(*Version).String()` (`pkg/semver/version.go`): `major.minor.patch`,
then `-prerelease` and `+build` when the fields are non-empty. -/
def Version.render (v : Version) : String := String.mk (renderL v)

/-- Operator character class `[~^><=]` of `constraintRegex`. -/
def isOpChar (c : Char) : Bool := c = '~' || c = '^' || c = '>' || c = '<' || c = '='

/-- Embedding of the anchored Go regex `^([~^><=]*)(.+)$` used by
`ParseConstraint`: on a match, returns the operator-character prefix and the
remainder. The first group is greedy but gives one character back when it
would consume the whole string (`.+` needs at least one character), and the
match fails when the remainder contains a newline (`.` excludes `\n`). -/
def constraintMatch (l : List Char) : Option (List Char × List Char) :=
  if l.isEmpty then none else
  let s := spanP isOpChar l
  if s.2.isEmpty then
    some (l.dropLast, l.drop (l.length - 1))
  else if s.2.contains '\n' then none
  else some s

/-- Go `ParseConstraint` (`pkg/semver/version.go`): split off the operator
prefix and parse the version body; on a regex miss, fall back to parsing the
whole string as a bare version with an empty operator. The source retries
`Parse` after an extra `NormalizeVersion` when the first attempt fails; the
retry is embedded as in the source. `none` models the error returns. -/
def ParseConstraint (s : String) : Option (String × Version) :=
  match constraintMatch s.data with
  | none =>
    match Parse s with
    | some v => some ("", v)
    | none => none
  | some (ops, rest) =>
    match Parse (String.mk rest) with
    | some v => some (String.mk ops, v)
    | none =>
      match Parse (NormalizeVersion (String.mk rest)) with
      | some v => some (String.mk ops, v)
      | none => none

/-- The operator `switch` inside Go `IsCompatible`
(`pkg/semver/version.go`): decides whether version `v` satisfies the
constraint `(constraintType, c)`; `none` models the
`unsupported constraint type` error. -/
def compatibleCase (constraintType : String) (v c : Version) : Option Bool :=
  if constraintType = "^" then
    some (if c.Major > 0 then
            v.Major == c.Major && decide (Compare v c ≥ 0)
          else if c.Minor > 0 then
            v.Major == 0 && v.Minor == c.Minor && decide (Compare v c ≥ 0)
          else
            v.Major == 0 && v.Minor == 0 && v.Patch == c.Patch)
  else if constraintType = "~" then
    some (v.Major == c.Major && v.Minor == c.Minor && decide (v.Patch ≥ c.Patch))
  else if constraintType = ">" then some (decide (Compare v c > 0))
  else if constraintType = ">=" then some (decide (Compare v c ≥ 0))
  else if constraintType = "<" then some (decide (Compare v c < 0))
  else if constraintType = "<=" then some (decide (Compare v c ≤ 0))
  else if constraintType = "=" ∨ constraintType = "" then some (decide (Compare v c = 0))
  else none

/-- Go `IsCompatible` (`pkg/semver/version.go`): parse both strings, then
dispatch on the operator; `none` models the error returns. -/
def IsCompatible (version constraint : String) : Option Bool :=
  match Parse version with
  | none => none
  | some v =>
    match ParseConstraint constraint with
    | none => none
    | some (op, c) => compatibleCase op v c

/-- The eligibility `switch` inside Go `FindBestUpgrade`
(`pkg/npm/registry.go`): is `cand` an eligible upgrade for the constraint
`(constraintType, c)`? The Go `switch` has no default, so unsupported
operator strings leave `eligible` at `false`. -/
def eligibleUpgrade (constraintType : String) (c cand : Version) : Bool :=
  if constraintType = "^" then
    (if c.Major > 0 then
      cand.Major == c.Major && decide (Compare cand c > 0)
    else if c.Minor > 0 then
      cand.Major == 0 && cand.Minor == c.Minor && decide (Compare cand c > 0)
    else
      cand.Major == 0 && cand.Minor == 0 && decide (Compare cand c > 0))
  else if constraintType = "~" then
    cand.Major == c.Major && cand.Minor == c.Minor && decide (Compare cand c > 0)
  else if constraintType = ">" then decide (Compare cand c > 0)
  else if constraintType = ">=" then decide (Compare cand c ≥ 0)
  else if constraintType = "<" then decide (Compare cand c < 0)
  else if constraintType = "<=" then decide (Compare cand c ≤ 0)
  else if constraintType = "=" ∨ constraintType = "" then
    cand.Major == c.Major && decide (Compare cand c > 0)
  else false

/-- One iteration of the candidate loop in Go `FindBestUpgrade`: skip
unparseable candidates, and replace the running best when the candidate is
eligible and strictly greater than the current best (or there is none). -/
def bestStep (constraintType : String) (c : Version)
    (acc : Option (Version × String)) (s : String) : Option (Version × String) :=
  match Parse s with
  | none => acc
  | some cand =>
    if eligibleUpgrade constraintType c cand &&
        (match acc with
         | none => true
         | some (b, _) => decide (Compare cand b > 0)) then
      some (cand, s)
    else acc

/-- Go `FindBestUpgrade` (`pkg/npm/registry.go`). The registry fetch is a
collaborator; its published version strings enter here as `candidates`
(the Go map iteration becomes list order, which only affects which of two
`Compare`-equal candidates is kept). `Except.error` models the Go error
returns with their message strings. -/
def FindBestUpgrade (packageName currentVersion : String)
    (candidates : List String) : Except String String :=
  match ParseConstraint currentVersion with
  | none => Except.error ("invalid constraint format: " ++ currentVersion)
  | some (constraintType, version) =>
    match candidates.foldl (bestStep constraintType version) none with
    | some (_, bestVersionStr) => Except.ok (constraintType ++ bestVersionStr)
    | none =>
      if constraintType = "=" ∨ constraintType = "" then
        if candidates.contains version.render then Except.ok version.render
        else
          match candidates.find? (fun s => s == currentVersion || s == version.render) with
          | some s => Except.ok s
          | none =>
            Except.error ("no compatible upgrades found for " ++ packageName
              ++ "@" ++ currentVersion)
      else
        Except.error ("no compatible upgrades found for " ++ packageName
          ++ "@" ++ currentVersion)

/-- Go struct `CPEMatch` (`pkg/security/nvd_client.go`): the bounded wire
shape of a vulnerability range, four optional bound strings. -/
structure CPEMatch where
  Vulnerable : Bool
  CPE23URI : String
  VersionStartExcluding : String
  VersionStartIncluding : String
  VersionEndExcluding : String
  VersionEndIncluding : String
deriving Repr, DecidableEq

/-- One bound check of Go `isVersionInVulnerableRange`: the bound rejects
the version exactly when its string is non-empty, parses, and the parsed
bound fails the test `viol`. -/
def boundViolated (s : String) (viol : Version → Bool) : Bool :=
  s != "" &&
    (match Parse s with
     | some b => viol b
     | none => false)

/-- Go `isVersionInVulnerableRange` (`pkg/security/nvd_client.go`): the
version is in the range unless some present, parseable bound excludes it. -/
def isVersionInVulnerableRange (version : Version) (cpeMatch : CPEMatch) : Bool :=
  if boundViolated cpeMatch.VersionStartExcluding
      (fun b => decide (Compare version b ≤ 0)) then false
  else if boundViolated cpeMatch.VersionStartIncluding
      (fun b => decide (Compare version b < 0)) then false
  else if boundViolated cpeMatch.VersionEndExcluding
      (fun b => decide (Compare version b ≥ 0)) then false
  else if boundViolated cpeMatch.VersionEndIncluding
      (fun b => decide (Compare version b > 0)) then false
  else true

/-- Go `strings.Split(s, " ")`: split at every single space character. -/
def splitOnSpace : List Char → List (List Char)
  | [] => [[]]
  | ' ' :: t => [] :: splitOnSpace t
  | c :: t =>
    match splitOnSpace t with
    | h :: r => (c :: h) :: r
    | [] => [[c]]

/-- The per-entry body of the loop in Go `isVersionVulnerable`
(`pkg/security/nvd_client.go`): the sequential pattern checks on one
comparator string, each of which can only conclude `true` (the Go
`return true`) and otherwise falls through to the next check. -/
def rangeMatches (version : Version) (rangeStr : String) : Bool :=
  (rangeStr.data == renderL version)
  || (['<'].isPrefixOf rangeStr.data &&
        match parseL (trimSpace (rangeStr.data.drop 1)) with
        | some upperBound => decide (Compare version upperBound < 0)
        | none => false)
  || (['<', '='].isPrefixOf rangeStr.data &&
        match parseL (trimSpace (rangeStr.data.drop 2)) with
        | some upperBound => decide (Compare version upperBound ≤ 0)
        | none => false)
  || (['>', '='].isPrefixOf rangeStr.data &&
        match parseL (trimSpace (rangeStr.data.drop 2)) with
        | some lowerBound => decide (Compare version lowerBound ≥ 0)
        | none => false)
  || (['>'].isPrefixOf rangeStr.data && !(['>', '='].isPrefixOf rangeStr.data) &&
        match parseL (trimSpace (rangeStr.data.drop 1)) with
        | some lowerBound => decide (Compare version lowerBound > 0)
        | none => false)
  || (rangeStr.data.contains ' ' &&
        match splitOnSpace rangeStr.data with
        | [p0, p1] =>
          (if ['>', '='].isPrefixOf p0 then
            match parseL (trimSpace (p0.drop 2)) with
            | some lowerBound => decide (Compare version lowerBound ≥ 0)
            | none => false
          else if ['>'].isPrefixOf p0 then
            match parseL (trimSpace (p0.drop 1)) with
            | some lowerBound => decide (Compare version lowerBound > 0)
            | none => false
          else false)
          &&
          (if ['<', '='].isPrefixOf p1 then
            match parseL (trimSpace (p1.drop 2)) with
            | some upperBound => decide (Compare version upperBound ≤ 0)
            | none => false
          else if ['<'].isPrefixOf p1 then
            match parseL (trimSpace (p1.drop 1)) with
            | some upperBound => decide (Compare version upperBound < 0)
            | none => false
          else false)
        | _ => false)

/-- Go `isVersionVulnerable` (`pkg/security/nvd_client.go`): the loop over
the advisory's comparator strings with its early `return true`. -/
def isVersionVulnerable (version : Version) : List String → Bool
  | [] => false
  | rangeStr :: rest =>
    if rangeMatches version rangeStr then true else isVersionVulnerable version rest

/-- Specification-side description of `Compare`'s prerelease tie-break:
`p` outranks `q` when `p` is a release and `q` a prerelease, or both are
prereleases and `q` sorts lexicographically before `p`. Used only to state
and derive order properties of `Compare`. -/
def preGtP (p q : String) : Prop :=
  (p = "" ∧ q ≠ "") ∨ (p ≠ "" ∧ q ≠ "" ∧ strLt q.data p.data = true)

/-- Specification-side strict order on versions: lexicographic on major,
minor, patch, then the prerelease tie-break. Used only to state and derive
order properties of `Compare`. -/
def vGtP (a b : Version) : Prop :=
  b.Major < a.Major ∨ (a.Major = b.Major ∧
    (b.Minor < a.Minor ∨ (a.Minor = b.Minor ∧
      (b.Patch < a.Patch ∨ (a.Patch = b.Patch ∧ preGtP a.Prerelease b.Prerelease)))))

/-! ### Character-level facts -/

theorem isDigit_ne {c x : Char} (h : c.isDigit = true) (hx : x.isDigit = false) : c ≠ x := by
  intro hc
  rw [hc, hx] at h
  simp at h

theorem isIdentChar_ne {c x : Char} (h : isIdentChar c = true)
    (hx : isIdentChar x = false) : c ≠ x := by
  intro hc
  rw [hc, hx] at h
  simp at h

theorem isDigit_not_ws {c : Char} (h : c.isDigit = true) : c.isWhitespace = false := by
  by_contra hw
  rw [Bool.not_eq_false] at hw
  simp only [Char.isWhitespace, Bool.or_eq_true, decide_eq_true_eq] at hw
  rcases hw with ((hc | hc) | hc) | hc <;> rw [hc] at h <;> revert h <;> decide

theorem isIdentChar_not_ws {c : Char} (h : isIdentChar c = true) :
    c.isWhitespace = false := by
  by_contra hw
  rw [Bool.not_eq_false] at hw
  simp only [Char.isWhitespace, Bool.or_eq_true, decide_eq_true_eq] at hw
  rcases hw with ((hc | hc) | hc) | hc <;> rw [hc] at h <;> revert h <;> decide

theorem isDigit_ident {c : Char} (h : c.isDigit = true) : isIdentChar c = true := by
  simp only [isIdentChar, h, Bool.true_or]

/-! ### Order facts for the byte-lexicographic string order -/

theorem strLt_irrefl : ∀ l, strLt l l = false
  | [] => rfl
  | x :: xs => by
    simp only [strLt, lt_irrefl, if_false, if_pos rfl, if_true]
    exact strLt_irrefl xs

theorem strLt_trans : ∀ {a b c : List Char}, strLt a b = true → strLt b c = true →
    strLt a c = true
  | [], [], _, h1, _ => by simp [strLt] at h1
  | [], _ :: _, [], _, h2 => by simp [strLt] at h2
  | [], _ :: _, _ :: _, _, _ => rfl
  | _ :: _, [], _, h1, _ => by simp [strLt] at h1
  | _ :: _, _ :: _, [], _, h2 => by simp [strLt] at h2
  | x :: xs, y :: ys, z :: zs, h1, h2 => by
    simp only [strLt] at h1 h2 ⊢
    rcases lt_trichotomy x y with hxy | hxy | hxy
    · rcases lt_trichotomy y z with hyz | hyz | hyz
      · rw [if_pos (lt_trans hxy hyz)]
      · subst hyz
        rw [if_pos hxy]
      · rw [if_neg (asymm hyz), if_neg (ne_of_lt hyz).symm] at h2
        exact absurd h2 (by simp)
    · subst hxy
      rw [if_neg (lt_irrefl x), if_pos rfl] at h1
      rcases lt_trichotomy x z with hxz | hxz | hxz
      · rw [if_pos hxz]
      · subst hxz
        rw [if_neg (lt_irrefl x), if_pos rfl] at h2 ⊢
        exact strLt_trans h1 h2
      · rw [if_neg (asymm hxz), if_neg (ne_of_lt hxz).symm] at h2
        exact absurd h2 (by simp)
    · rw [if_neg (asymm hxy), if_neg (ne_of_lt hxy).symm] at h1
      exact absurd h1 (by simp)

theorem strLt_connex : ∀ {a b : List Char}, strLt a b = false → strLt b a = false → a = b
  | [], [], _, _ => rfl
  | [], _ :: _, h1, _ => by simp [strLt] at h1
  | _ :: _, [], _, h2 => by simp [strLt] at h2
  | x :: xs, y :: ys, h1, h2 => by
    simp only [strLt] at h1 h2
    rcases lt_trichotomy x y with hxy | hxy | hxy
    · rw [if_pos hxy] at h1
      exact absurd h1 (by simp)
    · subst hxy
      rw [if_neg (lt_irrefl x), if_pos rfl] at h1 h2
      rw [strLt_connex h1 h2]
    · rw [if_pos hxy] at h2
      exact absurd h2 (by simp)

/-! ### The comparator is a strict weak order -/

theorem strLt_asymm {a b : List Char} (h : strLt a b = true) : strLt b a = false := by
  by_contra h2
  rw [Bool.not_eq_false] at h2
  have h3 := strLt_trans h h2
  rw [strLt_irrefl] at h3
  simp at h3

theorem strData_inj {p q : String} (h : p.data = q.data) : p = q := by
  cases p
  cases q
  exact congrArg String.mk h

theorem preGtP_trans {p q r : String} (h1 : preGtP p q) (h2 : preGtP q r) : preGtP p r := by
  rcases h1 with ⟨a1, a2⟩ | ⟨a1, a2, a3⟩ <;> rcases h2 with ⟨b1, b2⟩ | ⟨b1, b2, b3⟩
  · exact absurd b1 a2
  · exact Or.inl ⟨a1, b2⟩
  · exact absurd b1 a2
  · exact Or.inr ⟨a1, b2, strLt_trans b3 a3⟩

theorem preGtP_asymm {p q : String} (h1 : preGtP p q) : ¬ preGtP q p := by
  rcases h1 with ⟨a1, a2⟩ | ⟨a1, a2, a3⟩ <;> rintro (⟨b1, b2⟩ | ⟨b1, b2, b3⟩)
  · exact a2 b1
  · exact b2 a1
  · exact a2 b1
  · rw [strLt_asymm a3] at b3
    simp at b3

theorem vGtP_trans {a b c : Version} (h1 : vGtP a b) (h2 : vGtP b c) : vGtP a c := by
  rcases h1 with h1 | ⟨e1, h1 | ⟨e2, h1 | ⟨e3, hp1⟩⟩⟩ <;>
    rcases h2 with h2 | ⟨f1, h2 | ⟨f2, h2 | ⟨f3, hp2⟩⟩⟩
  all_goals try exact Or.inl (by omega)
  all_goals try exact Or.inr ⟨by omega, Or.inl (by omega)⟩
  all_goals try exact Or.inr ⟨by omega, Or.inr ⟨by omega, Or.inl (by omega)⟩⟩
  exact Or.inr ⟨by omega, Or.inr ⟨by omega, Or.inr ⟨by omega, preGtP_trans hp1 hp2⟩⟩⟩

theorem vGtP_asymm {a b : Version} (h1 : vGtP a b) : ¬ vGtP b a := by
  rintro (h2 | ⟨f1, h2 | ⟨f2, h2 | ⟨f3, hp2⟩⟩⟩) <;>
    rcases h1 with h1 | ⟨e1, h1 | ⟨e2, h1 | ⟨e3, hp1⟩⟩⟩ <;> try omega
  exact preGtP_asymm hp1 hp2

theorem compare_pos_iff {a b : Version} : Compare a b = 1 ↔ vGtP a b := by
  unfold Compare vGtP preGtP
  split_ifs with h1 h2 h3 h4 h5 h6 h7 h8 h9 h10 h11
  · exact iff_of_true rfl (Or.inl h2)
  · refine iff_of_false (by decide) ?_
    rintro (h | ⟨e, _⟩) <;> omega
  · exact iff_of_true rfl (Or.inr ⟨by omega, Or.inl h4⟩)
  · refine iff_of_false (by decide) ?_
    rintro (h | ⟨e, h | ⟨e2, _⟩⟩) <;> omega
  · exact iff_of_true rfl (Or.inr ⟨by omega, Or.inr ⟨by omega, Or.inl h6⟩⟩)
  · refine iff_of_false (by decide) ?_
    rintro (h | ⟨e, h | ⟨e2, h | ⟨e3, _⟩⟩⟩) <;> omega
  · exact iff_of_true rfl
      (Or.inr ⟨by omega, Or.inr ⟨by omega, Or.inr ⟨by omega, Or.inl h7⟩⟩⟩)
  · refine iff_of_false (by decide) ?_
    rintro (h | ⟨e, h | ⟨e2, h | ⟨e3, hp⟩⟩⟩) <;> try omega
    rcases hp with ⟨p1, _⟩ | ⟨_, p2, _⟩
    · exact h8.1 p1
    · exact p2 h8.2
  · refine iff_of_false (by decide) ?_
    rintro (h | ⟨e, h | ⟨e2, h | ⟨e3, hp⟩⟩⟩) <;> try omega
    rcases hp with ⟨_, p1⟩ | ⟨_, p2, _⟩
    · exact p1 h9.2
    · exact p2 h9.2
  · refine iff_of_false (by decide) ?_
    rintro (h | ⟨e, h | ⟨e2, h | ⟨e3, hp⟩⟩⟩) <;> try omega
    rcases hp with ⟨p1, _⟩ | ⟨_, _, p3⟩
    · exact absurd ⟨p1, fun hb => h8 ⟨by tauto, hb⟩⟩ h7
    · rw [strLt_asymm h10] at p3
      simp at p3
  · refine iff_of_true rfl ?_
    refine Or.inr ⟨by omega, Or.inr ⟨by omega, Or.inr ⟨by omega, Or.inr ?_⟩⟩⟩
    have hq : ¬ b.Prerelease = "" := fun hb => h8 ⟨fun ha => h9 ⟨ha, hb⟩, hb⟩
    have hp : ¬ a.Prerelease = "" := fun ha => h7 ⟨ha, fun hb => h9 ⟨ha, hb⟩⟩
    exact ⟨hp, hq, h11⟩
  · refine iff_of_false (by decide) ?_
    rintro (h | ⟨e, h | ⟨e2, h | ⟨e3, hp⟩⟩⟩) <;> try omega
    rcases hp with ⟨p1, _⟩ | ⟨_, _, p3⟩
    · exact absurd ⟨p1, fun hb => h8 ⟨by tauto, hb⟩⟩ h7
    · rw [p3] at h11
      exact h11 rfl

theorem compare_neg_iff {a b : Version} : Compare a b = -1 ↔ vGtP b a := by
  unfold Compare vGtP preGtP
  split_ifs with h1 h2 h3 h4 h5 h6 h7 h8 h9 h10 h11
  · refine iff_of_false (by decide) ?_
    rintro (h | ⟨e, _⟩) <;> omega
  · exact iff_of_true rfl (Or.inl (by omega))
  · refine iff_of_false (by decide) ?_
    rintro (h | ⟨e, h | ⟨e2, _⟩⟩) <;> omega
  · exact iff_of_true rfl (Or.inr ⟨by omega, Or.inl (by omega)⟩)
  · refine iff_of_false (by decide) ?_
    rintro (h | ⟨e, h | ⟨e2, h | ⟨e3, _⟩⟩⟩) <;> omega
  · exact iff_of_true rfl (Or.inr ⟨by omega, Or.inr ⟨by omega, Or.inl (by omega)⟩⟩)
  · refine iff_of_false (by decide) ?_
    rintro (h | ⟨e, h | ⟨e2, h | ⟨e3, hp⟩⟩⟩) <;> try omega
    rcases hp with ⟨p1, p2⟩ | ⟨_, p2, _⟩
    · exact p2 h7.1
    · exact p2 h7.1
  · refine iff_of_true rfl ?_
    exact Or.inr ⟨by omega, Or.inr ⟨by omega, Or.inr ⟨by omega, Or.inl ⟨h8.2, h8.1⟩⟩⟩⟩
  · refine iff_of_false (by decide) ?_
    rintro (h | ⟨e, h | ⟨e2, h | ⟨e3, hp⟩⟩⟩) <;> try omega
    rcases hp with ⟨_, p2⟩ | ⟨_, p2, _⟩
    · exact p2 h9.1
    · exact p2 h9.1
  · refine iff_of_true rfl ?_
    refine Or.inr ⟨by omega, Or.inr ⟨by omega, Or.inr ⟨by omega, Or.inr ?_⟩⟩⟩
    have hq : ¬ b.Prerelease = "" := fun hb => h8 ⟨fun ha => h9 ⟨ha, hb⟩, hb⟩
    have hp : ¬ a.Prerelease = "" := fun ha => h7 ⟨ha, fun hb => h9 ⟨ha, hb⟩⟩
    exact ⟨hq, hp, h10⟩
  · refine iff_of_false (by decide) ?_
    rintro (h | ⟨e, h | ⟨e2, h | ⟨e3, hp⟩⟩⟩) <;> try omega
    rcases hp with ⟨p1, _⟩ | ⟨_, _, p3⟩
    · exact h8 ⟨fun ha => h9 ⟨ha, p1⟩, p1⟩
    · rw [p3] at h10
      exact h10 rfl
  · refine iff_of_false (by decide) ?_
    rintro (h | ⟨e, h | ⟨e2, h | ⟨e3, hp⟩⟩⟩) <;> try omega
    rcases hp with ⟨p1, _⟩ | ⟨_, _, p3⟩
    · exact h8 ⟨fun ha => h9 ⟨ha, p1⟩, p1⟩
    · rw [p3] at h10
      exact h10 rfl

theorem compare_zero_iff {a b : Version} : Compare a b = 0 ↔
    a.Major = b.Major ∧ a.Minor = b.Minor ∧ a.Patch = b.Patch ∧
      a.Prerelease = b.Prerelease := by
  unfold Compare
  split_ifs with h1 h2 h3 h4 h5 h6 h7 h8 h9 h10 h11
  · exact iff_of_false (by decide) (by tauto)
  · exact iff_of_false (by decide) (by tauto)
  · exact iff_of_false (by decide) (by tauto)
  · exact iff_of_false (by decide) (by tauto)
  · exact iff_of_false (by decide) (by tauto)
  · exact iff_of_false (by decide) (by tauto)
  · refine iff_of_false (by decide) ?_
    rintro ⟨_, _, _, hp⟩
    rw [h7.1] at hp
    exact h7.2 hp.symm
  · refine iff_of_false (by decide) ?_
    rintro ⟨_, _, _, hp⟩
    rw [h8.2] at hp
    exact h8.1 hp
  · exact iff_of_true rfl ⟨by omega, by omega, by omega, by rw [h9.1, h9.2]⟩
  · refine iff_of_false (by decide) ?_
    rintro ⟨_, _, _, hp⟩
    rw [hp] at h10
    rw [strLt_irrefl] at h10
    simp at h10
  · refine iff_of_false (by decide) ?_
    rintro ⟨_, _, _, hp⟩
    rw [hp] at h11
    rw [strLt_irrefl] at h11
    simp at h11
  · refine iff_of_true rfl ⟨by omega, by omega, by omega, ?_⟩
    have hc := strLt_connex (a := a.Prerelease.data) (b := b.Prerelease.data)
      (by simpa using h10) (by simpa using h11)
    exact strData_inj hc

theorem compare_values (a b : Version) :
    Compare a b = -1 ∨ Compare a b = 0 ∨ Compare a b = 1 := by
  unfold Compare
  split_ifs <;> simp

theorem compare_self (v : Version) : Compare v v = 0 :=
  compare_zero_iff.mpr ⟨rfl, rfl, rfl, rfl⟩

theorem compare_antisym (a b : Version) : Compare b a = -(Compare a b) := by
  rcases compare_values a b with h | h | h <;> rw [h]
  · rw [compare_pos_iff.mpr (compare_neg_iff.mp h)]
    decide
  · obtain ⟨h1, h2, h3, h4⟩ := compare_zero_iff.mp h
    rw [compare_zero_iff.mpr ⟨h1.symm, h2.symm, h3.symm, h4.symm⟩]
    decide
  · rw [compare_neg_iff.mpr (compare_pos_iff.mp h)]

theorem compare_trans_pos {a b c : Version} (h1 : Compare a b = 1) (h2 : Compare b c = 1) :
    Compare a c = 1 :=
  compare_pos_iff.mpr (vGtP_trans (compare_pos_iff.mp h1) (compare_pos_iff.mp h2))

theorem compare_congr_left {a b c : Version} (h : Compare a b = 0) :
    Compare a c = Compare b c := by
  obtain ⟨h1, h2, h3, h4⟩ := compare_zero_iff.mp h
  unfold Compare
  rw [h1, h2, h3, h4]

theorem compare_congr_right {a b c : Version} (h : Compare b c = 0) :
    Compare a b = Compare a c := by
  obtain ⟨h1, h2, h3, h4⟩ := compare_zero_iff.mp h
  unfold Compare
  rw [h1, h2, h3, h4]

theorem compare_le_trans {a b c : Version} (h1 : Compare a b ≤ 0) (h2 : Compare b c ≤ 0) :
    Compare a c ≤ 0 := by
  rcases compare_values a b with v1 | v1 | v1
  · rcases compare_values b c with v2 | v2 | v2
    · rw [compare_neg_iff.mpr (vGtP_trans (compare_neg_iff.mp v2) (compare_neg_iff.mp v1))]
      decide
    · rw [← compare_congr_right v2, v1]
      decide
    · rw [v2] at h2
      omega
  · rw [compare_congr_left v1]
    exact h2
  · rw [v1] at h1
    omega

theorem compare_gt_iff {a b : Version} : 0 < Compare a b ↔ Compare a b = 1 := by
  rcases compare_values a b with h | h | h <;> rw [h] <;> decide

theorem compare_lt_iff {a b : Version} : Compare a b < 0 ↔ Compare a b = -1 := by
  rcases compare_values a b with h | h | h <;> rw [h] <;> decide

theorem compare_pos_patch {d c : Version} (h : Compare d c = 1) (h1 : d.Major = c.Major)
    (h2 : d.Minor = c.Minor) : c.Patch ≤ d.Patch := by
  rcases compare_pos_iff.mp h with h | ⟨_, h | ⟨_, h | ⟨e, _⟩⟩⟩ <;> omega

/-! ### Claim theorems: constraint satisfaction and the comparator -/

/-- C1: caret satisfaction follows the case split on the constraint's
leftmost non-zero component — same major and `v ≥ c` when `c.major > 0`;
major zero, same minor and `v ≥ c` when `c.minor > 0`; otherwise major and
minor zero and exact patch equality — together with the five boundary
examples evaluated end to end through string parsing. -/
theorem caret_satisfaction_spec :
    (∀ v c : Version, compatibleCase "^" v c = some true ↔
        ((0 < c.Major ∧ v.Major = c.Major ∧ 0 ≤ Compare v c) ∨
         (c.Major = 0 ∧ 0 < c.Minor ∧ v.Major = 0 ∧ v.Minor = c.Minor ∧ 0 ≤ Compare v c) ∨
         (c.Major = 0 ∧ c.Minor = 0 ∧ v.Major = 0 ∧ v.Minor = 0 ∧ v.Patch = c.Patch)))
    ∧ IsCompatible "1.2.3" "^1.2.0" = some true
    ∧ IsCompatible "2.0.0" "^1.2.3" = some false
    ∧ IsCompatible "0.2.5" "^0.2.3" = some true
    ∧ IsCompatible "0.3.0" "^0.2.3" = some false
    ∧ IsCompatible "0.0.4" "^0.0.3" = some false := by
  refine ⟨?_, by decide, by decide, by decide, by decide, by decide⟩
  intro v c
  rw [show compatibleCase "^" v c =
      some (if c.Major > 0 then v.Major == c.Major && decide (Compare v c ≥ 0)
            else if c.Minor > 0 then
              v.Major == 0 && v.Minor == c.Minor && decide (Compare v c ≥ 0)
            else v.Major == 0 && v.Minor == 0 && v.Patch == c.Patch) from rfl,
    Option.some.injEq]
  split_ifs with h1 h2 <;>
    simp only [Bool.and_eq_true, beq_iff_eq, decide_eq_true_eq]
  · constructor
    · rintro ⟨e, hle⟩
      exact Or.inl ⟨h1, e, hle⟩
    · rintro (⟨_, e, hle⟩ | ⟨h, _⟩ | ⟨h, _⟩)
      · exact ⟨e, hle⟩
      · omega
      · omega
  · constructor
    · rintro ⟨⟨e1, e2⟩, hle⟩
      exact Or.inr (Or.inl ⟨by omega, h2, e1, e2, hle⟩)
    · rintro (⟨h, _⟩ | ⟨_, _, e1, e2, hle⟩ | ⟨_, h, _⟩)
      · omega
      · exact ⟨⟨e1, e2⟩, hle⟩
      · omega
  · constructor
    · rintro ⟨⟨e1, e2⟩, e3⟩
      exact Or.inr (Or.inr ⟨by omega, by omega, e1, e2, e3⟩)
    · rintro (⟨h, _⟩ | ⟨_, h, _⟩ | ⟨_, _, e1, e2, e3⟩)
      · omega
      · omega
      · exact ⟨⟨e1, e2⟩, e3⟩

/-- C2: `Compare` is a strict weak order — reflexive at zero, antisymmetric,
transitive, consistent with the numeric component ordering, ranks a release
above any prerelease of the same core, compares two prereleases by the
byte/codepoint-lexicographic string order, and never consults the build
field. -/
theorem compare_strict_weak_order_spec :
    (∀ v : Version, Compare v v = 0)
    ∧ (∀ a b : Version, Compare b a = -(Compare a b))
    ∧ (∀ a b c : Version, Compare a b = 1 → Compare b c = 1 → Compare a c = 1)
    ∧ (∀ a b : Version, a.Major < b.Major → Compare a b = -1)
    ∧ (∀ a b : Version, a.Major = b.Major → a.Minor < b.Minor → Compare a b = -1)
    ∧ (∀ a b : Version, a.Major = b.Major → a.Minor = b.Minor → a.Patch < b.Patch →
        Compare a b = -1)
    ∧ (∀ a b : Version, a.Major = b.Major → a.Minor = b.Minor → a.Patch = b.Patch →
        a.Prerelease = "" → b.Prerelease ≠ "" → Compare a b = 1)
    ∧ (∀ a b : Version, a.Major = b.Major → a.Minor = b.Minor → a.Patch = b.Patch →
        a.Prerelease ≠ "" → b.Prerelease ≠ "" →
        Compare a b = (if strLt a.Prerelease.data b.Prerelease.data then -1
          else if strLt b.Prerelease.data a.Prerelease.data then 1 else 0))
    ∧ (∀ a b : Version, ∀ x y : String,
        Compare ⟨a.Major, a.Minor, a.Patch, a.Prerelease, x⟩
          ⟨b.Major, b.Minor, b.Patch, b.Prerelease, y⟩ = Compare a b) := by
  refine ⟨compare_self, compare_antisym, fun _ _ _ => compare_trans_pos,
    ?_, ?_, ?_, ?_, ?_, ?_⟩
  · intro a b h
    exact compare_neg_iff.mpr (Or.inl h)
  · intro a b h1 h2
    exact compare_neg_iff.mpr (Or.inr ⟨h1.symm, Or.inl h2⟩)
  · intro a b h1 h2 h3
    exact compare_neg_iff.mpr (Or.inr ⟨h1.symm, Or.inr ⟨h2.symm, Or.inl h3⟩⟩)
  · intro a b h1 h2 h3 h4 h5
    exact compare_pos_iff.mpr
      (Or.inr ⟨h1, Or.inr ⟨h2, Or.inr ⟨h3, Or.inl ⟨h4, h5⟩⟩⟩⟩)
  · intro a b h1 h2 h3 h4 h5
    unfold Compare
    rw [if_neg (by omega), if_neg (by omega), if_neg (by omega),
        if_neg (by tauto), if_neg (by tauto), if_neg (by tauto)]
  · intro a b x y
    rfl

/-- Witness for C2: transitivity and the patch-consistency clause applied at
concrete versions. -/
theorem compare_strict_weak_order_spec_w :
    Compare ⟨3, 0, 0, "", ""⟩ ⟨1, 0, 0, "", ""⟩ = 1 ∧
    Compare ⟨1, 2, 3, "", ""⟩ ⟨1, 2, 4, "", ""⟩ = -1 :=
  ⟨compare_strict_weak_order_spec.2.2.1 ⟨3, 0, 0, "", ""⟩ ⟨2, 0, 0, "", ""⟩
      ⟨1, 0, 0, "", ""⟩ (by decide) (by decide),
   compare_strict_weak_order_spec.2.2.2.2.2.1 ⟨1, 2, 3, "", ""⟩ ⟨1, 2, 4, "", ""⟩
      rfl rfl (by decide)⟩

/-- C3 counterexample: `1.2.3-alpha` satisfies `~1.2.3` in the code even
though it is strictly below `1.2.3` under the full comparator, refuting
"satisfies(v, ~c) iff same major, same minor and compare(v, c) >= 0". -/
theorem tilde_full_compare_cex :
    IsCompatible "1.2.3-alpha" "~1.2.3" = some true ∧
    Compare ⟨1, 2, 3, "alpha", ""⟩ ⟨1, 2, 3, "", ""⟩ = -1 ∧
    Parse "1.2.3-alpha" = some ⟨1, 2, 3, "alpha", ""⟩ ∧
    ParseConstraint "~1.2.3" = some ("~", ⟨1, 2, 3, "", ""⟩) :=
  ⟨by decide, by decide, by decide, by decide⟩

/-- C3 amended: tilde satisfaction requires same major, same minor and
`v.patch >= c.patch` (component comparison only — prerelease precedence is
not consulted), with the two boundary examples. -/
theorem tilde_satisfaction_spec :
    (∀ v c : Version, compatibleCase "~" v c = some true ↔
        v.Major = c.Major ∧ v.Minor = c.Minor ∧ c.Patch ≤ v.Patch)
    ∧ IsCompatible "1.2.4" "~1.2.3" = some true
    ∧ IsCompatible "1.3.0" "~1.2.3" = some false := by
  refine ⟨?_, by decide, by decide⟩
  intro v c
  rw [show compatibleCase "~" v c =
      some (v.Major == c.Major && v.Minor == c.Minor && decide (v.Patch ≥ c.Patch)) from rfl,
    Option.some.injEq]
  simp only [Bool.and_eq_true, beq_iff_eq, decide_eq_true_eq]
  tauto

/-- C5 counterexample: under operator `<` the code marks candidate `1.0.0`
eligible against constraint version `2.0.0`, although it is not strictly
greater than the constraint version, refuting "eligible iff satisfies and
compare(candidate, constraint) > 0". -/
theorem upgrade_eligibility_cex :
    eligibleUpgrade "<" ⟨2, 0, 0, "", ""⟩ ⟨1, 0, 0, "", ""⟩ = true ∧
    ¬ (compatibleCase "<" ⟨1, 0, 0, "", ""⟩ ⟨2, 0, 0, "", ""⟩ = some true ∧
       0 < Compare ⟨1, 0, 0, "", ""⟩ ⟨2, 0, 0, "", ""⟩) := by
  decide

/-- C5 amended: the "satisfies and strictly greater" description holds
exactly for `>`, `~`, and `^` with a non-zero major or minor in the
constraint; the remaining operators use their own rules — `^0.0.x` drops
the patch-equality requirement, `>=`, `<`, `<=` use the plain comparator
test with no strictly-greater requirement, and `=`/empty require only the
same major plus strictly greater. -/
theorem upgrade_eligibility_spec :
    (∀ op : String, ∀ c d : Version,
      (op = ">" ∨ op = "~" ∨ (op = "^" ∧ (0 < c.Major ∨ 0 < c.Minor))) →
      (eligibleUpgrade op c d = true ↔
        compatibleCase op d c = some true ∧ 0 < Compare d c))
    ∧ (∀ c d : Version, c.Major = 0 → c.Minor = 0 →
        (eligibleUpgrade "^" c d = true ↔ d.Major = 0 ∧ d.Minor = 0 ∧ 0 < Compare d c))
    ∧ (∀ c d : Version, eligibleUpgrade ">=" c d = true ↔ 0 ≤ Compare d c)
    ∧ (∀ c d : Version, eligibleUpgrade "<" c d = true ↔ Compare d c < 0)
    ∧ (∀ c d : Version, eligibleUpgrade "<=" c d = true ↔ Compare d c ≤ 0)
    ∧ (∀ c d : Version, eligibleUpgrade "=" c d = true ↔
        d.Major = c.Major ∧ 0 < Compare d c)
    ∧ (∀ c d : Version, eligibleUpgrade "" c d = true ↔
        d.Major = c.Major ∧ 0 < Compare d c) := by
  refine ⟨?_, ?_, ?_, ?_, ?_, ?_, ?_⟩
  · rintro op c d (rfl | rfl | ⟨rfl, hc⟩)
    · rw [show eligibleUpgrade ">" c d = decide (Compare d c > 0) from rfl,
        show compatibleCase ">" d c = some (decide (Compare d c > 0)) from rfl,
        Option.some.injEq]
      simp only [decide_eq_true_eq]
      tauto
    · rw [show eligibleUpgrade "~" c d =
          (d.Major == c.Major && d.Minor == c.Minor && decide (Compare d c > 0)) from rfl,
        show compatibleCase "~" d c =
          some (d.Major == c.Major && d.Minor == c.Minor && decide (d.Patch ≥ c.Patch)) from rfl,
        Option.some.injEq]
      simp only [Bool.and_eq_true, beq_iff_eq, decide_eq_true_eq]
      constructor
      · rintro ⟨⟨e1, e2⟩, hgt⟩
        refine ⟨⟨⟨e1, e2⟩, ?_⟩, hgt⟩
        exact compare_pos_patch (compare_gt_iff.mp hgt) e1 e2
      · rintro ⟨⟨⟨e1, e2⟩, _⟩, hgt⟩
        exact ⟨⟨e1, e2⟩, hgt⟩
    · rw [show eligibleUpgrade "^" c d =
          (if c.Major > 0 then d.Major == c.Major && decide (Compare d c > 0)
           else if c.Minor > 0 then
             d.Major == 0 && d.Minor == c.Minor && decide (Compare d c > 0)
           else d.Major == 0 && d.Minor == 0 && decide (Compare d c > 0)) from rfl,
        show compatibleCase "^" d c =
          some (if c.Major > 0 then d.Major == c.Major && decide (Compare d c ≥ 0)
                else if c.Minor > 0 then
                  d.Major == 0 && d.Minor == c.Minor && decide (Compare d c ≥ 0)
                else d.Major == 0 && d.Minor == 0 && d.Patch == c.Patch) from rfl,
        Option.some.injEq]
      rcases Nat.lt_or_ge 0 c.Major with hM | hM
      · rw [if_pos hM, if_pos hM]
        simp only [Bool.and_eq_true, beq_iff_eq, decide_eq_true_eq]
        constructor
        · rintro ⟨e, hgt⟩
          exact ⟨⟨e, by omega⟩, hgt⟩
        · rintro ⟨⟨e, _⟩, hgt⟩
          exact ⟨e, hgt⟩
      · have hM0 : ¬ c.Major > 0 := by omega
        have hm : c.Minor > 0 := by
          rcases hc with hc | hc <;> omega
        rw [if_neg hM0, if_neg hM0, if_pos hm, if_pos hm]
        simp only [Bool.and_eq_true, beq_iff_eq, decide_eq_true_eq]
        constructor
        · rintro ⟨⟨e1, e2⟩, hgt⟩
          exact ⟨⟨⟨e1, e2⟩, by omega⟩, hgt⟩
        · rintro ⟨⟨⟨e1, e2⟩, _⟩, hgt⟩
          exact ⟨⟨e1, e2⟩, hgt⟩
  · intro c d h1 h2
    rw [show eligibleUpgrade "^" c d =
        (if c.Major > 0 then d.Major == c.Major && decide (Compare d c > 0)
         else if c.Minor > 0 then
           d.Major == 0 && d.Minor == c.Minor && decide (Compare d c > 0)
         else d.Major == 0 && d.Minor == 0 && decide (Compare d c > 0)) from rfl,
      if_neg (by omega : ¬ c.Major > 0), if_neg (by omega : ¬ c.Minor > 0)]
    simp only [Bool.and_eq_true, beq_iff_eq, decide_eq_true_eq]
    tauto
  · intro c d
    rw [show eligibleUpgrade ">=" c d = decide (Compare d c ≥ 0) from rfl]
    exact decide_eq_true_iff
  · intro c d
    rw [show eligibleUpgrade "<" c d = decide (Compare d c < 0) from rfl]
    exact decide_eq_true_iff
  · intro c d
    rw [show eligibleUpgrade "<=" c d = decide (Compare d c ≤ 0) from rfl]
    exact decide_eq_true_iff
  · intro c d
    rw [show eligibleUpgrade "=" c d =
        (d.Major == c.Major && decide (Compare d c > 0)) from rfl]
    simp only [Bool.and_eq_true, beq_iff_eq, decide_eq_true_eq]
  · intro c d
    rw [show eligibleUpgrade "" c d =
        (d.Major == c.Major && decide (Compare d c > 0)) from rfl]
    simp only [Bool.and_eq_true, beq_iff_eq, decide_eq_true_eq]

/-- Witness for C5: the amended equivalence applied to the tilde operator at
concrete versions. -/
theorem upgrade_eligibility_spec_w :
    eligibleUpgrade "~" ⟨1, 2, 3, "", ""⟩ ⟨1, 2, 4, "", ""⟩ = true ↔
      compatibleCase "~" ⟨1, 2, 4, "", ""⟩ ⟨1, 2, 3, "", ""⟩ = some true ∧
      0 < Compare ⟨1, 2, 4, "", ""⟩ ⟨1, 2, 3, "", ""⟩ :=
  upgrade_eligibility_spec.1 "~" ⟨1, 2, 3, "", ""⟩ ⟨1, 2, 4, "", ""⟩ (Or.inr (Or.inl rfl))

/-! ### Claim theorems: bounded vulnerability ranges -/

theorem parse_empty : Parse "" = none := by decide

theorem boundViolated_false_iff {s : String} {viol : Version → Bool} :
    boundViolated s viol = false ↔ ∀ b, Parse s = some b → viol b = false := by
  unfold boundViolated
  cases h : Parse s with
  | none => simp [h]
  | some b =>
    have hs : s ≠ "" := by
      intro hs
      rw [hs, parse_empty] at h
      cases h
    have hbne : (s != "") = true := by simpa [bne_iff_ne] using hs
    simp only [h, hbne, Bool.true_and, Option.some.injEq]
    constructor
    · intro hv b' hb'
      cases hb'
      exact hv
    · intro hall
      exact hall b rfl

theorem boundViolated_true_iff {s : String} {viol : Version → Bool} :
    boundViolated s viol = true ↔ ∃ b, Parse s = some b ∧ viol b = true := by
  rw [← Bool.not_eq_false, boundViolated_false_iff]
  push_neg
  constructor
  · rintro ⟨b, hb, hv⟩
    exact ⟨b, hb, by simpa using hv⟩
  · rintro ⟨b, hb, hv⟩
    exact ⟨b, hb, by simpa using hv⟩

theorem boundViolated_none {s : String} {viol : Version → Bool} (h : Parse s = none) :
    boundViolated s viol = false := by
  unfold boundViolated
  rw [h]
  simp

/-- C6: with all present bounds parseable, a version is inside the bounded
range exactly when every present bound admits it (`v > startExcluding`,
`v ≥ startIncluding`, `v < endExcluding`, `v ≤ endIncluding`); a range with
no bounds admits every version; and the `4.17.19`/`4.17.20` boundary
examples hold. -/
theorem bounded_range_spec :
    (∀ v : Version, ∀ m : CPEMatch,
      (m.VersionStartExcluding ≠ "" → (Parse m.VersionStartExcluding).isSome) →
      (m.VersionStartIncluding ≠ "" → (Parse m.VersionStartIncluding).isSome) →
      (m.VersionEndExcluding ≠ "" → (Parse m.VersionEndExcluding).isSome) →
      (m.VersionEndIncluding ≠ "" → (Parse m.VersionEndIncluding).isSome) →
      (isVersionInVulnerableRange v m = true ↔
        (∀ b, Parse m.VersionStartExcluding = some b → 0 < Compare v b) ∧
        (∀ b, Parse m.VersionStartIncluding = some b → 0 ≤ Compare v b) ∧
        (∀ b, Parse m.VersionEndExcluding = some b → Compare v b < 0) ∧
        (∀ b, Parse m.VersionEndIncluding = some b → Compare v b ≤ 0)))
    ∧ (∀ v : Version, ∀ u : Bool, ∀ cpe : String,
        isVersionInVulnerableRange v ⟨u, cpe, "", "", "", ""⟩ = true)
    ∧ isVersionInVulnerableRange ⟨4, 17, 19, "", ""⟩ ⟨true, "", "", "", "4.17.20", ""⟩ = true
    ∧ isVersionInVulnerableRange ⟨4, 17, 20, "", ""⟩ ⟨true, "", "", "", "4.17.20", ""⟩
        = false := by
  refine ⟨?_, ?_, by decide, by decide⟩
  · intro v m _ _ _ _
    unfold isVersionInVulnerableRange
    split_ifs with h1 h2 h3 h4
    · refine iff_of_false (by simp) ?_
      obtain ⟨b, hb, hv⟩ := boundViolated_true_iff.mp h1
      rintro ⟨H, _, _, _⟩
      have := H b hb
      simp only [decide_eq_true_eq] at hv
      omega
    · refine iff_of_false (by simp) ?_
      obtain ⟨b, hb, hv⟩ := boundViolated_true_iff.mp h2
      rintro ⟨_, H, _, _⟩
      have := H b hb
      simp only [decide_eq_true_eq] at hv
      omega
    · refine iff_of_false (by simp) ?_
      obtain ⟨b, hb, hv⟩ := boundViolated_true_iff.mp h3
      rintro ⟨_, _, H, _⟩
      have := H b hb
      simp only [decide_eq_true_eq] at hv
      omega
    · refine iff_of_false (by simp) ?_
      obtain ⟨b, hb, hv⟩ := boundViolated_true_iff.mp h4
      rintro ⟨_, _, _, H⟩
      have := H b hb
      simp only [decide_eq_true_eq] at hv
      omega
    · refine iff_of_true rfl ⟨?_, ?_, ?_, ?_⟩
      · intro b hb
        have := boundViolated_false_iff.mp (Bool.not_eq_true _ ▸ h1 :
          boundViolated m.VersionStartExcluding (fun b => decide (Compare v b ≤ 0)) = false)
          b hb
        simp only [decide_eq_false_iff_not] at this
        omega
      · intro b hb
        have := boundViolated_false_iff.mp (Bool.not_eq_true _ ▸ h2 :
          boundViolated m.VersionStartIncluding (fun b => decide (Compare v b < 0)) = false)
          b hb
        simp only [decide_eq_false_iff_not] at this
        omega
      · intro b hb
        have := boundViolated_false_iff.mp (Bool.not_eq_true _ ▸ h3 :
          boundViolated m.VersionEndExcluding (fun b => decide (Compare v b ≥ 0)) = false)
          b hb
        simp only [decide_eq_false_iff_not] at this
        omega
      · intro b hb
        have := boundViolated_false_iff.mp (Bool.not_eq_true _ ▸ h4 :
          boundViolated m.VersionEndIncluding (fun b => decide (Compare v b > 0)) = false)
          b hb
        simp only [decide_eq_false_iff_not] at this
        omega
  · intro v u cpe
    rfl

/-- Witness for C6: the bounded-range characterization applied at version
`1.0.0` with bounds `startIncluding 0.9.0` and `endIncluding 2.0.0`. -/
theorem bounded_range_spec_w :
    isVersionInVulnerableRange ⟨1, 0, 0, "", ""⟩ ⟨true, "x", "", "0.9.0", "", "2.0.0"⟩ = true ↔
      (∀ b, Parse "" = some b → 0 < Compare ⟨1, 0, 0, "", ""⟩ b) ∧
      (∀ b, Parse "0.9.0" = some b → 0 ≤ Compare ⟨1, 0, 0, "", ""⟩ b) ∧
      (∀ b, Parse "" = some b → Compare ⟨1, 0, 0, "", ""⟩ b < 0) ∧
      (∀ b, Parse "2.0.0" = some b → Compare ⟨1, 0, 0, "", ""⟩ b ≤ 0) :=
  bounded_range_spec.1 ⟨1, 0, 0, "", ""⟩ ⟨true, "x", "", "0.9.0", "", "2.0.0"⟩
    (by intro h; exact absurd rfl h) (by intro _; decide)
    (by intro h; exact absurd rfl h) (by intro _; decide)

/-- C10: a non-empty bound string that fails to parse imposes no
restriction — replacing it by the empty (absent) bound leaves the verdict
unchanged for every version — and a range all of whose present bounds are
unparseable reports every version as affected. -/
theorem unparseable_bound_spec :
    (∀ v : Version, ∀ u : Bool, ∀ cpe s1 s2 s3 s4 : String, s1 ≠ "" → Parse s1 = none →
      isVersionInVulnerableRange v ⟨u, cpe, s1, s2, s3, s4⟩ =
        isVersionInVulnerableRange v ⟨u, cpe, "", s2, s3, s4⟩)
    ∧ (∀ v : Version, ∀ u : Bool, ∀ cpe s1 s2 s3 s4 : String, s2 ≠ "" → Parse s2 = none →
      isVersionInVulnerableRange v ⟨u, cpe, s1, s2, s3, s4⟩ =
        isVersionInVulnerableRange v ⟨u, cpe, s1, "", s3, s4⟩)
    ∧ (∀ v : Version, ∀ u : Bool, ∀ cpe s1 s2 s3 s4 : String, s3 ≠ "" → Parse s3 = none →
      isVersionInVulnerableRange v ⟨u, cpe, s1, s2, s3, s4⟩ =
        isVersionInVulnerableRange v ⟨u, cpe, s1, s2, "", s4⟩)
    ∧ (∀ v : Version, ∀ u : Bool, ∀ cpe s1 s2 s3 s4 : String, s4 ≠ "" → Parse s4 = none →
      isVersionInVulnerableRange v ⟨u, cpe, s1, s2, s3, s4⟩ =
        isVersionInVulnerableRange v ⟨u, cpe, s1, s2, s3, ""⟩)
    ∧ (∀ v : Version, ∀ m : CPEMatch,
        Parse m.VersionStartExcluding = none → Parse m.VersionStartIncluding = none →
        Parse m.VersionEndExcluding = none → Parse m.VersionEndIncluding = none →
        isVersionInVulnerableRange v m = true) := by
  refine ⟨?_, ?_, ?_, ?_, ?_⟩
  · intro v u cpe s1 s2 s3 s4 _ h
    unfold isVersionInVulnerableRange
    rw [boundViolated_none h]
    exact rfl
  · intro v u cpe s1 s2 s3 s4 _ h
    unfold isVersionInVulnerableRange
    rw [boundViolated_none h]
    exact rfl
  · intro v u cpe s1 s2 s3 s4 _ h
    unfold isVersionInVulnerableRange
    rw [boundViolated_none h]
    exact rfl
  · intro v u cpe s1 s2 s3 s4 _ h
    unfold isVersionInVulnerableRange
    rw [boundViolated_none h]
    exact rfl
  · intro v m h1 h2 h3 h4
    unfold isVersionInVulnerableRange
    rw [boundViolated_none h1, boundViolated_none h2, boundViolated_none h3,
      boundViolated_none h4]
    exact rfl

/-- Witness for C10: an unparseable `startExcluding` bound behaves as if
absent, and a range whose only present bound is unparseable matches. -/
theorem unparseable_bound_spec_w :
    (isVersionInVulnerableRange ⟨1, 0, 0, "", ""⟩ ⟨true, "", "not-a-version", "", "", ""⟩ =
      isVersionInVulnerableRange ⟨1, 0, 0, "", ""⟩ ⟨true, "", "", "", "", ""⟩) ∧
    isVersionInVulnerableRange ⟨1, 0, 0, "", ""⟩ ⟨true, "", "not-a-version", "", "", ""⟩
      = true :=
  ⟨unparseable_bound_spec.1 ⟨1, 0, 0, "", ""⟩ true "" "not-a-version" "" "" ""
      (by decide) (by decide),
   unparseable_bound_spec.2.2.2.2 ⟨1, 0, 0, "", ""⟩ ⟨true, "", "not-a-version", "", "", ""⟩
      (by decide) (by decide) (by decide) (by decide)⟩

/-! ### Decimal rendering and its round-trip -/

theorem natToCharsF_fuel (n : Nat) : ∀ f g, n < f → n < g →
    natToCharsF f n = natToCharsF g n := by
  induction n using Nat.strong_induction_on with
  | _ n ih =>
    intro f g hf hg
    rcases f with _ | f0
    · omega
    rcases g with _ | g0
    · omega
    simp only [natToCharsF]
    by_cases h10 : n < 10
    · rw [if_pos h10, if_pos h10]
    · rw [if_neg h10, if_neg h10,
        ih (n / 10) (by omega) f0 g0 (by omega) (by omega)]

theorem natToChars_base {n : Nat} (h : n < 10) :
    natToChars n = [Char.ofNat (48 + n)] := by
  unfold natToChars
  rw [show natToCharsF (n + 1) n =
      (if n < 10 then [Char.ofNat (48 + n)]
       else natToCharsF n (n / 10) ++ [Char.ofNat (48 + n % 10)]) from rfl, if_pos h]

theorem natToChars_step {n : Nat} (h : ¬ n < 10) :
    natToChars n = natToChars (n / 10) ++ [Char.ofNat (48 + n % 10)] := by
  unfold natToChars
  rw [show natToCharsF (n + 1) n =
      (if n < 10 then [Char.ofNat (48 + n)]
       else natToCharsF n (n / 10) ++ [Char.ofNat (48 + n % 10)]) from rfl, if_neg h,
    natToCharsF_fuel (n / 10) n (n / 10 + 1) (by omega) (by omega)]

theorem digitChar_isDigit {n : Nat} (h : n < 10) :
    (Char.ofNat (48 + n)).isDigit = true := by
  interval_cases n <;> decide

theorem digitChar_toNat {n : Nat} (h : n < 10) : (Char.ofNat (48 + n)).toNat = 48 + n := by
  interval_cases n <;> decide

theorem natToChars_ne_nil (n : Nat) : natToChars n ≠ [] := by
  by_cases h : n < 10
  · rw [natToChars_base h]
    simp
  · rw [natToChars_step h]
    simp

theorem natToChars_digits (n : Nat) : ∀ c ∈ natToChars n, c.isDigit = true := by
  induction n using Nat.strong_induction_on with
  | _ n ih =>
    by_cases h : n < 10
    · rw [natToChars_base h]
      intro c hc
      simp only [List.mem_singleton] at hc
      subst hc
      exact digitChar_isDigit h
    · rw [natToChars_step h]
      intro c hc
      rcases List.mem_append.mp hc with hc | hc
      · exact ih (n / 10) (by omega) c hc
      · simp only [List.mem_singleton] at hc
        subst hc
        exact digitChar_isDigit (by omega)

theorem natOfDigits_append_digit (l : List Char) (c : Char) :
    natOfDigits (l ++ [c]) = 10 * natOfDigits l + (c.toNat - 48) := by
  unfold natOfDigits
  rw [List.foldl_append]
  rfl

theorem natOfDigits_natToChars (n : Nat) : natOfDigits (natToChars n) = n := by
  induction n using Nat.strong_induction_on with
  | _ n ih =>
    by_cases h : n < 10
    · rw [natToChars_base h]
      unfold natOfDigits
      simp only [List.foldl_cons, List.foldl_nil]
      rw [digitChar_toNat h]
      omega
    · rw [natToChars_step h, natOfDigits_append_digit, ih (n / 10) (by omega),
        digitChar_toNat (by omega : n % 10 < 10)]
      omega

/-! ### Claim theorems: upgrade selection -/

/-- C8 counterexample: with an empty candidate list the selector returns the
Go error value `no compatible upgrades found`, not a non-error "no eligible
upgrade" signal. -/
theorem empty_candidates_cex :
    FindBestUpgrade "react" "^1.2.3" [] =
      Except.error "no compatible upgrades found for react@^1.2.3" := rfl

/-- C8 amended: for every constraint the parser accepts, the selector
applied to an empty candidate list returns the error
`no compatible upgrades found for package@constraint`; the calling layer is
what turns this into a non-fatal warning. -/
theorem empty_candidates_spec (packageName currentVersion op : String) (c : Version)
    (h : ParseConstraint currentVersion = some (op, c)) :
    FindBestUpgrade packageName currentVersion [] =
      Except.error ("no compatible upgrades found for " ++ packageName ++ "@" ++
        currentVersion) := by
  unfold FindBestUpgrade
  simp only [h, List.foldl_nil]
  by_cases h1 : op = "=" ∨ op = ""
  · rw [if_pos h1]
    exact rfl
  · rw [if_neg h1]

/-- Witness for C8: the empty-candidate error at a concrete tilde
constraint. -/
theorem empty_candidates_spec_w :
    FindBestUpgrade "lodash" "~4.17.0" [] =
      Except.error ("no compatible upgrades found for " ++ "lodash" ++ "@" ++ "~4.17.0") :=
  empty_candidates_spec "lodash" "~4.17.0" "~" ⟨4, 17, 0, "", ""⟩ (by decide)

theorem bestStep_eq_none {op : String} {c : Version} {s : String} (h : Parse s = none)
    (acc : Option (Version × String)) : bestStep op c acc s = acc := by
  unfold bestStep
  rw [h]

theorem bestStep_eq_some_none {op : String} {c cand : Version} {s : String}
    (h : Parse s = some cand) :
    bestStep op c none s = if eligibleUpgrade op c cand then some (cand, s) else none := by
  unfold bestStep
  rw [h]
  show (if eligibleUpgrade op c cand && true then some (cand, s) else none) = _
  rw [Bool.and_true]

theorem bestStep_eq_some_some {op : String} {c cand b0 : Version} {s s0 : String}
    (h : Parse s = some cand) :
    bestStep op c (some (b0, s0)) s =
      if eligibleUpgrade op c cand && decide (Compare cand b0 > 0) then some (cand, s)
      else some (b0, s0) := by
  unfold bestStep
  rw [h]

/-- Once the loop holds a best candidate it keeps holding one, and the held
candidate never decreases under `Compare`. -/
theorem bestFold_mono (op : String) (c : Version) :
    ∀ (l : List String) (b0 : Version) (s0 : String),
      ∃ b1 s1, l.foldl (bestStep op c) (some (b0, s0)) = some (b1, s1) ∧
        Compare b0 b1 ≤ 0
  | [], b0, s0 => ⟨b0, s0, rfl, by rw [compare_self]⟩
  | s :: t, b0, s0 => by
    rw [List.foldl_cons]
    cases h : Parse s with
    | none =>
      rw [bestStep_eq_none h]
      exact bestFold_mono op c t b0 s0
    | some cand =>
      rw [bestStep_eq_some_some h]
      by_cases he : (eligibleUpgrade op c cand && decide (Compare cand b0 > 0)) = true
      · rw [if_pos he]
        obtain ⟨b1, s1, hf, hle⟩ := bestFold_mono op c t cand s
        refine ⟨b1, s1, hf, ?_⟩
        simp only [Bool.and_eq_true, decide_eq_true_eq] at he
        have ha := compare_antisym cand b0
        have hb : Compare b0 cand ≤ 0 := by omega
        exact compare_le_trans hb hle
      · rw [if_neg he]
        exact bestFold_mono op c t b0 s0

/-- The final best candidate dominates every eligible parseable entry of the
list under `Compare`. -/
theorem bestFold_ub (op : String) (c : Version) :
    ∀ (l : List String) (acc : Option (Version × String)) (b : Version) (sb : String),
      l.foldl (bestStep op c) acc = some (b, sb) →
      ∀ s ∈ l, ∀ vs, Parse s = some vs → eligibleUpgrade op c vs = true →
        Compare vs b ≤ 0
  | [], _, b, sb, _, s, hs, _, _, _ => absurd hs (List.not_mem_nil s)
  | s0 :: t, acc, b, sb, hres, s, hs, vs, hvs, hel => by
    rw [List.foldl_cons] at hres
    rcases List.mem_cons.mp hs with rfl | hs'
    · cases acc with
      | none =>
        rw [bestStep_eq_some_none hvs] at hres
        by_cases he : eligibleUpgrade op c vs = true
        · rw [if_pos he] at hres
          obtain ⟨b1, s1, hf, hle⟩ := bestFold_mono op c t vs s
          rw [hf] at hres
          simp only [Option.some.injEq, Prod.mk.injEq] at hres
          obtain ⟨rfl, rfl⟩ := hres
          exact hle
        · exact absurd hel he
      | some p =>
        obtain ⟨b0, s0'⟩ := p
        rw [bestStep_eq_some_some hvs] at hres
        by_cases he : (eligibleUpgrade op c vs && decide (Compare vs b0 > 0)) = true
        · rw [if_pos he] at hres
          obtain ⟨b1, s1, hf, hle⟩ := bestFold_mono op c t vs s
          rw [hf] at hres
          simp only [Option.some.injEq, Prod.mk.injEq] at hres
          obtain ⟨rfl, rfl⟩ := hres
          exact hle
        · rw [if_neg he] at hres
          simp only [Bool.and_eq_true, decide_eq_true_eq, not_and, not_lt] at he
          have hvb0 : Compare vs b0 ≤ 0 := he hel
          obtain ⟨b1, s1, hf, hle⟩ := bestFold_mono op c t b0 s0'
          rw [hf] at hres
          simp only [Option.some.injEq, Prod.mk.injEq] at hres
          obtain ⟨rfl, rfl⟩ := hres
          exact compare_le_trans hvb0 hle
    · exact bestFold_ub op c t (bestStep op c acc s0) b sb hres s hs' vs hvs hel

/-- The final best candidate is either the initial accumulator or a
parseable, eligible entry of the list. -/
theorem bestFold_found (op : String) (c : Version) :
    ∀ (l : List String) (acc : Option (Version × String)) (b : Version) (sb : String),
      l.foldl (bestStep op c) acc = some (b, sb) →
      acc = some (b, sb) ∨
        (sb ∈ l ∧ Parse sb = some b ∧ eligibleUpgrade op c b = true)
  | [], _, _, _, h => Or.inl h
  | s0 :: t, acc, b, sb, h => by
    rw [List.foldl_cons] at h
    rcases bestFold_found op c t (bestStep op c acc s0) b sb h with hacc | ⟨hmem, hp, he⟩
    · cases hps : Parse s0 with
      | none =>
        rw [bestStep_eq_none hps] at hacc
        exact Or.inl hacc
      | some cand =>
        cases acc with
        | none =>
          rw [bestStep_eq_some_none hps] at hacc
          by_cases he : eligibleUpgrade op c cand = true
          · rw [if_pos he] at hacc
            simp only [Option.some.injEq, Prod.mk.injEq] at hacc
            obtain ⟨rfl, rfl⟩ := hacc
            exact Or.inr ⟨List.mem_cons_self _ _, hps, he⟩
          · rw [if_neg he] at hacc
            simp at hacc
        | some p =>
          obtain ⟨b0, s0'⟩ := p
          rw [bestStep_eq_some_some hps] at hacc
          by_cases he : (eligibleUpgrade op c cand && decide (Compare cand b0 > 0)) = true
          · rw [if_pos he] at hacc
            simp only [Option.some.injEq, Prod.mk.injEq] at hacc
            obtain ⟨rfl, rfl⟩ := hacc
            simp only [Bool.and_eq_true, decide_eq_true_eq] at he
            exact Or.inr ⟨List.mem_cons_self _ _, hps, he.1⟩
          · rw [if_neg he] at hacc
            exact Or.inl hacc
    · exact Or.inr ⟨List.mem_cons_of_mem _ hmem, hp, he⟩

/-- If some entry of the list is parseable and eligible, the loop ends
holding a best candidate. -/
theorem bestFold_progress (op : String) (c : Version) :
    ∀ (l : List String) (acc : Option (Version × String)),
      (∃ s ∈ l, ∃ vs, Parse s = some vs ∧ eligibleUpgrade op c vs = true) →
      ∃ b sb, l.foldl (bestStep op c) acc = some (b, sb)
  | [], _, h => by
    obtain ⟨s, hs, _⟩ := h
    exact absurd hs (List.not_mem_nil s)
  | s0 :: t, acc, h => by
    rw [List.foldl_cons]
    cases hacc : bestStep op c acc s0 with
    | some p =>
      obtain ⟨b0, s0'⟩ := p
      obtain ⟨b1, s1, hf, _⟩ := bestFold_mono op c t b0 s0'
      exact ⟨b1, s1, hf⟩
    | none =>
      obtain ⟨s, hs, vs, hvs, hel⟩ := h
      rcases List.mem_cons.mp hs with rfl | hs'
      · cases ha : acc with
        | some p =>
          obtain ⟨b0, s0'⟩ := p
          rw [ha, bestStep_eq_some_some hvs] at hacc
          by_cases he : (eligibleUpgrade op c vs && decide (Compare vs b0 > 0)) = true
          · rw [if_pos he] at hacc
            simp at hacc
          · rw [if_neg he] at hacc
            simp at hacc
        | none =>
          rw [ha, bestStep_eq_some_none hvs, if_pos hel] at hacc
          simp at hacc
      · exact bestFold_progress op c t none ⟨s, hs', vs, hvs, hel⟩

/-- C4: when the constraint parses and some candidate is an eligible
upgrade, `FindBestUpgrade` returns the constraint's operator re-applied to
an eligible candidate that dominates every eligible candidate under
`Compare`; and for constraint `^17.0.1` against `{16.14.0, 17.0.2, 18.2.0}`
the result is exactly `^17.0.2`. -/
theorem find_best_upgrade_spec :
    (∀ (packageName currentVersion : String) (candidates : List String)
        (op : String) (c : Version),
      ParseConstraint currentVersion = some (op, c) →
      (∀ s ∈ candidates, (Parse s).isSome) →
      (∃ s ∈ candidates, ∃ vs, Parse s = some vs ∧ eligibleUpgrade op c vs = true) →
      ∃ sb b, FindBestUpgrade packageName currentVersion candidates =
          Except.ok (op ++ sb) ∧
        sb ∈ candidates ∧ Parse sb = some b ∧ eligibleUpgrade op c b = true ∧
        ∀ s ∈ candidates, ∀ vs, Parse s = some vs → eligibleUpgrade op c vs = true →
          Compare vs b ≤ 0)
    ∧ FindBestUpgrade "react" "^17.0.1" ["16.14.0", "17.0.2", "18.2.0"]
        = Except.ok "^17.0.2" := by
  refine ⟨?_, rfl⟩
  intro packageName currentVersion candidates op c hpc _ hex
  obtain ⟨b, sb, hres⟩ := bestFold_progress op c candidates none hex
  rcases bestFold_found op c candidates none b sb hres with hcontra | ⟨hmem, hp, he⟩
  · cases hcontra
  · refine ⟨sb, b, ?_, hmem, hp, he, bestFold_ub op c candidates none b sb hres⟩
    unfold FindBestUpgrade
    simp only [hpc, hres]

/-- Witness for C4: the maximal-eligible-upgrade property applied to the
`^17.0.1` example. -/
theorem find_best_upgrade_spec_w :
    ∃ sb b, FindBestUpgrade "react" "^17.0.1" ["16.14.0", "17.0.2", "18.2.0"] =
        Except.ok ("^" ++ sb) ∧
      sb ∈ ["16.14.0", "17.0.2", "18.2.0"] ∧ Parse sb = some b ∧
      eligibleUpgrade "^" ⟨17, 0, 1, "", ""⟩ b = true ∧
      ∀ s ∈ ["16.14.0", "17.0.2", "18.2.0"], ∀ vs, Parse s = some vs →
        eligibleUpgrade "^" ⟨17, 0, 1, "", ""⟩ vs = true →
        Compare vs b ≤ 0 :=
  find_best_upgrade_spec.1 "react" "^17.0.1" ["16.14.0", "17.0.2", "18.2.0"] "^"
    ⟨17, 0, 1, "", ""⟩ (by decide)
    (by intro s hs; fin_cases hs <;> decide)
    ⟨"17.0.2", by simp, ⟨17, 0, 2, "", ""⟩, by decide, by decide⟩

/-! ### Computing the semver matcher on rendered versions -/

theorem head_block {p : Char → Bool} {c : Char} (h : p c = false) (t : List Char) :
    ∀ x, (c :: t).head? = some x → p x = false := by
  intro x hx
  rw [show (c :: t).head? = some c from rfl, Option.some.injEq] at hx
  subst hx
  exact h

theorem spanP_exact (p : Char → Bool) (l r : List Char) (hl : ∀ c ∈ l, p c = true)
    (hr : ∀ c, r.head? = some c → p c = false) : spanP p (l ++ r) = (l, r) := by
  induction l with
  | nil =>
    cases r with
    | nil => rfl
    | cons c t =>
      simp only [List.nil_append]
      rw [show spanP p (c :: t) =
          (if p c then ((spanP p t).1.cons c, (spanP p t).2) else ([], c :: t)) from rfl,
        hr c rfl, if_neg (by decide)]
  | cons a l ih =>
    simp only [List.cons_append]
    rw [show spanP p (a :: (l ++ r)) =
        (if p a then ((spanP p (l ++ r)).1.cons a, (spanP p (l ++ r)).2)
         else ([], a :: (l ++ r))) from rfl,
      hl a (List.mem_cons_self a l), if_pos rfl,
      ih (fun c hc => hl c (List.mem_cons_of_mem a hc))]

theorem spanP_run (p : Char → Bool) (d : Char) (ds r : List Char)
    (hl : ∀ c ∈ d :: ds, p c = true) (hr : ∀ c, r.head? = some c → p c = false) :
    spanP p (d :: (ds ++ r)) = (d :: ds, r) := by
  rw [← List.cons_append]
  exact spanP_exact p (d :: ds) r hl hr

theorem spanP_split (p : Char → Bool) : ∀ l : List Char,
    l = (spanP p l).1 ++ (spanP p l).2 ∧ (∀ c ∈ (spanP p l).1, p c = true)
  | [] => ⟨rfl, by simp [spanP]⟩
  | c :: t => by
    obtain ⟨he, hall⟩ := spanP_split p t
    rw [show spanP p (c :: t) =
        (if p c then ((spanP p t).1.cons c, (spanP p t).2) else ([], c :: t)) from rfl]
    by_cases h : p c = true
    · rw [h, if_pos rfl]
      refine ⟨?_, ?_⟩
      · rw [show (((spanP p t).1.cons c, (spanP p t).2).1 : List Char) =
            c :: (spanP p t).1 from rfl,
          show (((spanP p t).1.cons c, (spanP p t).2).2 : List Char) =
            (spanP p t).2 from rfl, List.cons_append, ← he]
      · intro x hx
        rw [show (((spanP p t).1.cons c, (spanP p t).2).1 : List Char) =
            c :: (spanP p t).1 from rfl] at hx
        rcases List.mem_cons.mp hx with rfl | hx'
        · exact h
        · exact hall x hx'
    · rw [Bool.not_eq_true] at h
      rw [h, if_neg (by decide)]
      exact ⟨rfl, by simp⟩

theorem stripV_cons_ne {c : Char} {t : List Char} (h : c ≠ 'v') :
    stripV (c :: t) = c :: t := by
  rw [show stripV (c :: t) = (if c = 'v' then t else c :: t) from rfl, if_neg h]

theorem optGroup_cons_ne {c mark : Char} (p : Char → Bool) (t : List Char) (h : c ≠ mark) :
    optGroup mark p (c :: t) = ([], c :: t) := by
  rw [show optGroup mark p (c :: t) =
      (if c = mark then
        (if (spanP p t).1.isEmpty then ([], c :: t) else spanP p t)
       else ([], c :: t)) from rfl, if_neg h]

theorem optGroup_cons_mark (mark : Char) (p : Char → Bool) (t : List Char) :
    optGroup mark p (mark :: t) =
      if (spanP p t).1.isEmpty then ([], mark :: t) else spanP p t := by
  rw [show optGroup mark p (mark :: t) =
      (if mark = mark then
        (if (spanP p t).1.isEmpty then ([], mark :: t) else spanP p t)
       else ([], mark :: t)) from rfl, if_pos rfl]

theorem optGroup_all (mark : Char) (p : Char → Bool) (l : List Char) :
    ∀ c ∈ (optGroup mark p l).1, p c = true := by
  cases l with
  | nil => simp [optGroup]
  | cons c t =>
    by_cases h : c = mark
    · subst h
      rw [optGroup_cons_mark]
      by_cases he : ((spanP p t).1.isEmpty : Bool) = true
      · rw [if_pos he]
        simp
      · rw [if_neg he]
        exact (spanP_split p t).2
    · rw [optGroup_cons_ne p t h]
      simp

/-- The regex matcher on a fully rendered release version followed by an
arbitrary blocked tail: succeeds exactly when the tail is empty. -/
theorem matchSemver_noPre (tail : List Char) (d b0 c0 : Char) (ds bs cs : List Char)
    (hAd : ∀ c ∈ d :: ds, c.isDigit = true) (hBd : ∀ c ∈ b0 :: bs, c.isDigit = true)
    (hCd : ∀ c ∈ c0 :: cs, c.isDigit = true)
    (htb : ∀ x, tail.head? = some x →
      (x.isDigit = false ∧ isIdentChar x = false ∧ x ≠ '.' ∧ x ≠ '-' ∧ x ≠ '+')) :
    matchSemver (d :: (ds ++ '.' :: b0 :: (bs ++ '.' :: c0 :: (cs ++ tail)))) =
      if tail.isEmpty then
        some ⟨natOfDigits (d :: ds), natOfDigits (b0 :: bs), natOfDigits (c0 :: cs),
              String.mk [], String.mk []⟩
      else none := by
  have hd : d.isDigit = true := hAd d (List.mem_cons_self d ds)
  unfold matchSemver
  simp only []
  rw [stripV_cons_ne (isDigit_ne hd (by decide)),
    spanP_run Char.isDigit d ds ('.' :: b0 :: (bs ++ '.' :: c0 :: (cs ++ tail))) hAd
      (head_block (by decide) _)]
  rw [show ((d :: ds, '.' :: b0 :: (bs ++ '.' :: c0 :: (cs ++ tail))).1 : List Char) =
      d :: ds from rfl,
    show ((d :: ds, '.' :: b0 :: (bs ++ '.' :: c0 :: (cs ++ tail))).2 : List Char) =
      '.' :: b0 :: (bs ++ '.' :: c0 :: (cs ++ tail)) from rfl,
    if_neg (show ¬((d :: ds).isEmpty = true) by simp)]
  rw [optGroup_cons_mark '.' Char.isDigit (b0 :: (bs ++ '.' :: c0 :: (cs ++ tail))),
    spanP_run Char.isDigit b0 bs ('.' :: c0 :: (cs ++ tail)) hBd (head_block (by decide) _),
    if_neg (show ¬((b0 :: bs, '.' :: c0 :: (cs ++ tail)).1.isEmpty = true) by simp)]
  rw [show ((b0 :: bs, '.' :: c0 :: (cs ++ tail)).1 : List Char) = b0 :: bs from rfl,
    show ((b0 :: bs, '.' :: c0 :: (cs ++ tail)).2 : List Char) =
      '.' :: c0 :: (cs ++ tail) from rfl]
  rw [optGroup_cons_mark '.' Char.isDigit (c0 :: (cs ++ tail)),
    spanP_run Char.isDigit c0 cs tail hCd (fun x hx => (htb x hx).1),
    if_neg (show ¬((c0 :: cs, tail).1.isEmpty = true) by simp)]
  rw [show ((c0 :: cs, tail).1 : List Char) = c0 :: cs from rfl,
    show ((c0 :: cs, tail).2 : List Char) = tail from rfl]
  cases tail with
  | nil =>
    rw [show optGroup '-' isIdentChar [] = (([], []) : List Char × List Char) from rfl]
    rw [show ((([], []) : List Char × List Char)).1 = [] from rfl,
      show ((([], []) : List Char × List Char)).2 = [] from rfl]
    rw [show optGroup '+' isIdentChar [] = (([], []) : List Char × List Char) from rfl]
  | cons t0 ts =>
    obtain ⟨_, _, _, hm, hpl⟩ := htb t0 rfl
    rw [optGroup_cons_ne isIdentChar ts hm]
    rw [show (([], t0 :: ts) : List Char × List Char).1 = [] from rfl,
      show (([], t0 :: ts) : List Char × List Char).2 = t0 :: ts from rfl]
    rw [optGroup_cons_ne isIdentChar ts hpl]

/-- The regex matcher on a fully rendered prerelease version followed by an
arbitrary blocked tail: succeeds exactly when the tail is empty. -/
theorem matchSemver_pre (tail : List Char) (d b0 c0 p0 : Char) (ds bs cs ps : List Char)
    (hAd : ∀ c ∈ d :: ds, c.isDigit = true) (hBd : ∀ c ∈ b0 :: bs, c.isDigit = true)
    (hCd : ∀ c ∈ c0 :: cs, c.isDigit = true)
    (hPd : ∀ c ∈ p0 :: ps, isIdentChar c = true)
    (htb : ∀ x, tail.head? = some x →
      (x.isDigit = false ∧ isIdentChar x = false ∧ x ≠ '.' ∧ x ≠ '-' ∧ x ≠ '+')) :
    matchSemver
        (d :: (ds ++ '.' :: b0 :: (bs ++ '.' :: c0 :: (cs ++ '-' :: p0 :: (ps ++ tail))))) =
      if tail.isEmpty then
        some ⟨natOfDigits (d :: ds), natOfDigits (b0 :: bs), natOfDigits (c0 :: cs),
              String.mk (p0 :: ps), String.mk []⟩
      else none := by
  have hd : d.isDigit = true := hAd d (List.mem_cons_self d ds)
  unfold matchSemver
  simp only []
  rw [stripV_cons_ne (isDigit_ne hd (by decide)),
    spanP_run Char.isDigit d ds
      ('.' :: b0 :: (bs ++ '.' :: c0 :: (cs ++ '-' :: p0 :: (ps ++ tail)))) hAd
      (head_block (by decide) _)]
  rw [show ((d :: ds,
        '.' :: b0 :: (bs ++ '.' :: c0 :: (cs ++ '-' :: p0 :: (ps ++ tail)))).1
        : List Char) = d :: ds from rfl,
    show ((d :: ds,
        '.' :: b0 :: (bs ++ '.' :: c0 :: (cs ++ '-' :: p0 :: (ps ++ tail)))).2
        : List Char) =
      '.' :: b0 :: (bs ++ '.' :: c0 :: (cs ++ '-' :: p0 :: (ps ++ tail))) from rfl,
    if_neg (show ¬((d :: ds).isEmpty = true) by simp)]
  rw [optGroup_cons_mark '.' Char.isDigit
      (b0 :: (bs ++ '.' :: c0 :: (cs ++ '-' :: p0 :: (ps ++ tail)))),
    spanP_run Char.isDigit b0 bs ('.' :: c0 :: (cs ++ '-' :: p0 :: (ps ++ tail))) hBd
      (head_block (by decide) _),
    if_neg (show ¬((b0 :: bs,
        '.' :: c0 :: (cs ++ '-' :: p0 :: (ps ++ tail))).1.isEmpty = true) by simp)]
  rw [show ((b0 :: bs, '.' :: c0 :: (cs ++ '-' :: p0 :: (ps ++ tail))).1 : List Char) =
      b0 :: bs from rfl,
    show ((b0 :: bs, '.' :: c0 :: (cs ++ '-' :: p0 :: (ps ++ tail))).2 : List Char) =
      '.' :: c0 :: (cs ++ '-' :: p0 :: (ps ++ tail)) from rfl]
  rw [optGroup_cons_mark '.' Char.isDigit (c0 :: (cs ++ '-' :: p0 :: (ps ++ tail))),
    spanP_run Char.isDigit c0 cs ('-' :: p0 :: (ps ++ tail)) hCd
      (head_block (by decide) _),
    if_neg (show ¬((c0 :: cs, '-' :: p0 :: (ps ++ tail)).1.isEmpty = true) by simp)]
  rw [show ((c0 :: cs, '-' :: p0 :: (ps ++ tail)).1 : List Char) = c0 :: cs from rfl,
    show ((c0 :: cs, '-' :: p0 :: (ps ++ tail)).2 : List Char) =
      '-' :: p0 :: (ps ++ tail) from rfl]
  rw [optGroup_cons_mark '-' isIdentChar (p0 :: (ps ++ tail)),
    spanP_run isIdentChar p0 ps tail hPd (fun x hx => (htb x hx).2.1),
    if_neg (show ¬((p0 :: ps, tail).1.isEmpty = true) by simp)]
  rw [show ((p0 :: ps, tail).1 : List Char) = p0 :: ps from rfl,
    show ((p0 :: ps, tail).2 : List Char) = tail from rfl]
  cases tail with
  | nil =>
    rw [show optGroup '+' isIdentChar [] = (([], []) : List Char × List Char) from rfl]
  | cons t0 ts =>
    obtain ⟨_, _, _, _, hpl⟩ := htb t0 rfl
    rw [optGroup_cons_ne isIdentChar ts hpl]

theorem mem_of_head? {l : List Char} {c : Char} (h : l.head? = some c) : c ∈ l := by
  cases l with
  | nil => cases h
  | cons a t =>
    rw [show (a :: t).head? = some a from rfl, Option.some.injEq] at h
    subst h
    exact List.mem_cons_self a t

theorem mem_of_getLast? {l : List Char} {c : Char} (h : l.getLast? = some c) : c ∈ l := by
  have h2 : l.reverse.head? = some c := by
    rw [List.head?_reverse]
    exact h
  exact List.mem_reverse.mp (mem_of_head? h2)

theorem dropWhile_head_id {p : Char → Bool} {l : List Char}
    (h : ∀ c, l.head? = some c → p c = false) : l.dropWhile p = l := by
  cases l with
  | nil => rfl
  | cons a t =>
    rw [List.dropWhile_cons, if_neg (by simp [h a rfl])]

theorem trimSpace_id {l : List Char}
    (h1 : ∀ c, l.head? = some c → c.isWhitespace = false)
    (h2 : ∀ c, l.getLast? = some c → c.isWhitespace = false) : trimSpace l = l := by
  unfold trimSpace
  rw [dropWhile_head_id h1,
    dropWhile_head_id (fun c hc => h2 c (by rwa [List.head?_reverse] at hc)),
    List.reverse_reverse]

theorem isPrefixOf_cons_ne {a c : Char} (p : List Char) {t : List Char} (h : a ≠ c) :
    (a :: p).isPrefixOf (c :: t) = false := by
  rw [show (a :: p).isPrefixOf (c :: t) = (a == c && p.isPrefixOf t) from rfl]
  simp [h]

theorem dropPre_id {pfx l : List Char} (h : pfx.isPrefixOf l = false) : dropPre pfx l = l := by
  unfold dropPre
  rw [h, if_neg (show ¬(false = true) by decide)]

theorem normalizeL_digit {l : List Char}
    (hh : ∀ c, l.head? = some c → c.isDigit = true)
    (hl : ∀ c, l.getLast? = some c → c.isWhitespace = false) : normalizeL l = l := by
  cases l with
  | nil => rfl
  | cons d t =>
    have hd : d.isDigit = true := hh d rfl
    have hws : ∀ c, (d :: t).head? = some c → c.isWhitespace = false := by
      intro c hc
      rw [show (d :: t).head? = some d from rfl, Option.some.injEq] at hc
      subst hc
      exact isDigit_not_ws hd
    have h1 : trimSpace (d :: t) = d :: t := trimSpace_id hws hl
    unfold normalizeL
    rw [h1,
      dropPre_id (isPrefixOf_cons_ne [] (show '^' ≠ d from (isDigit_ne hd (by decide)).symm)),
      dropPre_id (isPrefixOf_cons_ne [] (show '~' ≠ d from (isDigit_ne hd (by decide)).symm)),
      dropPre_id (isPrefixOf_cons_ne ['=']
        (show '>' ≠ d from (isDigit_ne hd (by decide)).symm)),
      dropPre_id (isPrefixOf_cons_ne [] (show '>' ≠ d from (isDigit_ne hd (by decide)).symm)),
      dropPre_id (isPrefixOf_cons_ne ['=']
        (show '<' ≠ d from (isDigit_ne hd (by decide)).symm)),
      dropPre_id (isPrefixOf_cons_ne [] (show '<' ≠ d from (isDigit_ne hd (by decide)).symm)),
      dropPre_id (isPrefixOf_cons_ne [] (show '=' ≠ d from (isDigit_ne hd (by decide)).symm)),
      h1]

theorem renderL_ident {v : Version} (hb : v.Build = "")
    (hp : ∀ c ∈ v.Prerelease.data, isIdentChar c = true) :
    ∀ c ∈ renderL v, isIdentChar c = true := by
  intro c hc
  unfold renderL at hc
  rw [hb, if_pos rfl, List.append_nil] at hc
  by_cases hpre : v.Prerelease = ""
  · rw [if_pos hpre, List.append_nil] at hc
    simp only [List.append_assoc, List.cons_append] at hc
    rcases List.mem_append.mp hc with h | h
    · exact isDigit_ident (natToChars_digits _ _ h)
    · rcases List.mem_cons.mp h with rfl | h'
      · decide
      · rcases List.mem_append.mp h' with h | h
        · exact isDigit_ident (natToChars_digits _ _ h)
        · rcases List.mem_cons.mp h with rfl | h2
          · decide
          · exact isDigit_ident (natToChars_digits _ _ h2)
  · rw [if_neg hpre] at hc
    simp only [List.append_assoc, List.cons_append] at hc
    rcases List.mem_append.mp hc with h | h
    · exact isDigit_ident (natToChars_digits _ _ h)
    · rcases List.mem_cons.mp h with rfl | h'
      · decide
      · rcases List.mem_append.mp h' with h | h
        · exact isDigit_ident (natToChars_digits _ _ h)
        · rcases List.mem_cons.mp h with rfl | h2
          · decide
          · rcases List.mem_append.mp h2 with h | h
            · exact isDigit_ident (natToChars_digits _ _ h)
            · rcases List.mem_cons.mp h with rfl | h3
              · decide
              · exact hp c h3

theorem strMk_data (s : String) : String.mk s.data = s := rfl

theorem data_ne_nil {s : String} (h : s ≠ "") : s.data ≠ [] := by
  intro hd
  exact h (by rw [← strMk_data s, hd])

/-- Parsing a rendered version followed by a blocked tail: the parse
succeeds, returning the original version, exactly when the tail is empty.
The tail may not begin with a character any regex element could consume nor
with whitespace, and may not end in whitespace (so trimming is the
identity). -/
theorem parseL_render_tail (v : Version) (hb : v.Build = "")
    (hp : ∀ c ∈ v.Prerelease.data, isIdentChar c = true) (tail : List Char)
    (htb : ∀ x, tail.head? = some x →
      (x.isDigit = false ∧ isIdentChar x = false ∧ x ≠ '.' ∧ x ≠ '-' ∧ x ≠ '+'))
    (htl : ∀ x, tail.getLast? = some x → x.isWhitespace = false) :
    parseL (renderL v ++ tail) = if tail.isEmpty then some v else none := by
  obtain ⟨M, m, p, pre, bu⟩ := v
  simp only [] at hb hp
  subst hb
  obtain ⟨d, ds, hM⟩ := List.exists_cons_of_ne_nil (natToChars_ne_nil M)
  obtain ⟨b0, bs, hm⟩ := List.exists_cons_of_ne_nil (natToChars_ne_nil m)
  obtain ⟨c0, cs, hp3⟩ := List.exists_cons_of_ne_nil (natToChars_ne_nil p)
  have hAd : ∀ c ∈ d :: ds, c.isDigit = true := by
    rw [← hM]
    exact natToChars_digits M
  have hBd : ∀ c ∈ b0 :: bs, c.isDigit = true := by
    rw [← hm]
    exact natToChars_digits m
  have hCd : ∀ c ∈ c0 :: cs, c.isDigit = true := by
    rw [← hp3]
    exact natToChars_digits p
  have htb5 := htb
  have hlast : ∀ x, (renderL ⟨M, m, p, pre, ""⟩ ++ tail).getLast? = some x →
      x.isWhitespace = false := by
    intro x hx
    cases tail with
    | nil =>
      rw [List.append_nil] at hx
      exact isIdentChar_not_ws (renderL_ident rfl hp x (mem_of_getLast? hx))
    | cons t0 ts =>
      rw [List.getLast?_append_of_ne_nil _ (by simp)] at hx
      exact htl x hx
  by_cases hpre : pre = ""
  · subst hpre
    have hshape : renderL ⟨M, m, p, "", ""⟩ ++ tail =
        d :: (ds ++ '.' :: b0 :: (bs ++ '.' :: c0 :: (cs ++ tail))) := by
      have h0 : renderL ⟨M, m, p, "", ""⟩ =
          natToChars M ++ '.' :: natToChars m ++ '.' :: natToChars p ++ [] ++ [] := rfl
      rw [h0, hM, hm, hp3]
      simp only [List.append_nil, List.append_assoc, List.cons_append, List.nil_append]
    have hhead : ∀ c, (renderL ⟨M, m, p, "", ""⟩ ++ tail).head? = some c →
        c.isDigit = true := by
      intro c hc
      rw [hshape] at hc
      have h2 : some d = some c := hc
      rw [Option.some.injEq] at h2
      subst h2
      exact hAd d (List.mem_cons_self d ds)
    unfold parseL
    rw [normalizeL_digit hhead hlast, hshape,
      matchSemver_noPre tail d b0 c0 ds bs cs hAd hBd hCd htb5,
      ← hM, ← hm, ← hp3, natOfDigits_natToChars, natOfDigits_natToChars,
      natOfDigits_natToChars]
  · obtain ⟨p0, ps, hPd⟩ := List.exists_cons_of_ne_nil (data_ne_nil hpre)
    have hP : ∀ c ∈ p0 :: ps, isIdentChar c = true := by
      rw [← hPd]
      exact hp
    have hshape : renderL ⟨M, m, p, pre, ""⟩ ++ tail =
        d :: (ds ++ '.' :: b0 :: (bs ++ '.' :: c0 ::
          (cs ++ '-' :: p0 :: (ps ++ tail)))) := by
      have h0 : renderL ⟨M, m, p, pre, ""⟩ =
          natToChars M ++ '.' :: natToChars m ++ '.' :: natToChars p
            ++ (if pre = "" then [] else '-' :: pre.data) ++ [] := rfl
      rw [h0, if_neg hpre, hM, hm, hp3, hPd]
      simp only [List.append_nil, List.append_assoc, List.cons_append, List.nil_append]
    have hhead : ∀ c, (renderL ⟨M, m, p, pre, ""⟩ ++ tail).head? = some c →
        c.isDigit = true := by
      intro c hc
      rw [hshape] at hc
      have h2 : some d = some c := hc
      rw [Option.some.injEq] at h2
      subst h2
      exact hAd d (List.mem_cons_self d ds)
    unfold parseL
    rw [normalizeL_digit hhead hlast, hshape,
      matchSemver_pre tail d b0 c0 p0 ds bs cs ps hAd hBd hCd hP htb5,
      ← hM, ← hm, ← hp3, ← hPd, natOfDigits_natToChars, natOfDigits_natToChars,
      natOfDigits_natToChars, strMk_data]

/-- Round trip at the core level: rendering then parsing is the identity on
versions with empty build and grammar-conformant prerelease. -/
theorem parseL_render (v : Version) (hb : v.Build = "")
    (hp : ∀ c ∈ v.Prerelease.data, isIdentChar c = true) :
    parseL (renderL v) = some v := by
  have h := parseL_render_tail v hb hp [] (fun x hx => by cases hx) (fun x hx => by cases hx)
  rw [List.append_nil] at h
  rw [h]
  rfl

set_option maxHeartbeats 1200000 in
/-- Every version produced by the parser has a grammar-conformant
prerelease field. -/
theorem parse_pre_valid {s : String} {v : Version} (h : Parse s = some v) :
    ∀ c ∈ v.Prerelease.data, isIdentChar c = true := by
  unfold Parse parseL matchSemver at h
  simp only [] at h
  by_cases h1 : ((spanP Char.isDigit (stripV (normalizeL s.data))).1.isEmpty : Bool) = true
  · rw [if_pos h1] at h
    cases h
  · rw [if_neg h1] at h
    by_cases h2 : ((optGroup '+' isIdentChar
        (optGroup '-' isIdentChar
          (optGroup '.' Char.isDigit
            (optGroup '.' Char.isDigit
              (spanP Char.isDigit (stripV (normalizeL s.data))).2).2).2).2).2.isEmpty
        : Bool) = true
    · rw [if_pos h2, Option.some.injEq] at h
      subst h
      exact optGroup_all '-' isIdentChar _
    · rw [if_neg h2] at h
      cases h

/-- C9: for every Version value `v` in the spec's data model (build empty,
prerelease drawn from the §4.1 grammar class `[0-9A-Za-z-.]`, as holds for
every Version the parser creates — second conjunct), parsing the string
rendering of `v` yields `v` back: `Parse (v.render) = some v`. -/
theorem parse_render_roundtrip (v w : Version) (s : String) (hb : v.Build = "")
    (hp : v.Prerelease.data.all isIdentChar = true)
    (hw : Parse s = some w) :
    Parse v.render = some v ∧ w.Prerelease.data.all isIdentChar = true := by
  constructor
  · exact parseL_render v hb (fun c hc => (List.all_eq_true.mp hp) c hc)
  · exact List.all_eq_true.mpr (fun c hc => parse_pre_valid hw c hc)

theorem parse_render_roundtrip_w :
    Parse (Version.render ⟨1, 22, 333, "alpha.1", ""⟩) =
        some ⟨1, 22, 333, "alpha.1", ""⟩ ∧
      (Version.Prerelease ⟨0, 1, 2, "rc.1", ""⟩).data.all isIdentChar = true :=
  parse_render_roundtrip ⟨1, 22, 333, "alpha.1", ""⟩ ⟨0, 1, 2, "rc.1", ""⟩
    "0.1.2-rc.1" rfl (by decide) (by decide)

/-! ### Comparator-string range machinery -/

theorem isVersionVulnerable_any (v : Version) (l : List String) :
    isVersionVulnerable v l = l.any (rangeMatches v) := by
  induction l with
  | nil => rfl
  | cons a t ih =>
    unfold isVersionVulnerable
    by_cases h : rangeMatches v a = true
    · rw [if_pos h, List.any_cons, h, Bool.true_or]
    · rw [if_neg h, List.any_cons, Bool.eq_false_iff.mpr h, Bool.false_or, ih]

theorem splitOnSpace_cons_ne {c : Char} (t : List Char) (hc : c ≠ ' ') :
    splitOnSpace (c :: t) = (match splitOnSpace t with
      | h :: r => (c :: h) :: r
      | [] => [[c]]) := by
  simp [splitOnSpace, hc]

theorem splitOnSpace_nospace {l : List Char} (h : ∀ c ∈ l, c ≠ ' ') :
    splitOnSpace l = [l] := by
  induction l with
  | nil => rfl
  | cons c t ih =>
    rw [splitOnSpace_cons_ne t (h c (List.mem_cons_self c t)),
      ih (fun x hx => h x (List.mem_cons_of_mem c hx))]

theorem splitOnSpace_sep {l1 : List Char} (l2 : List Char) (h : ∀ c ∈ l1, c ≠ ' ') :
    splitOnSpace (l1 ++ ' ' :: l2) = l1 :: splitOnSpace l2 := by
  induction l1 with
  | nil => rfl
  | cons c t ih =>
    rw [List.cons_append, splitOnSpace_cons_ne _ (h c (List.mem_cons_self c t)),
      ih (fun x hx => h x (List.mem_cons_of_mem c hx))]

theorem renderL_head_digit (v : Version) :
    ∃ d ds, renderL v = d :: ds ∧ d.isDigit = true := by
  obtain ⟨d, ds0, hM⟩ := List.exists_cons_of_ne_nil (natToChars_ne_nil v.Major)
  have hd : d.isDigit = true :=
    natToChars_digits v.Major d (by rw [hM]; exact List.mem_cons_self d ds0)
  refine ⟨d, ds0 ++ '.' :: natToChars v.Minor ++ '.' :: natToChars v.Patch
      ++ (if v.Prerelease = "" then [] else '-' :: v.Prerelease.data)
      ++ (if v.Build = "" then [] else '+' :: v.Build.data), ?_, hd⟩
  unfold renderL
  rw [hM]
  simp only [List.cons_append, List.append_assoc]

theorem renderL_headDigit (v : Version) :
    ∀ c, (renderL v).head? = some c → c.isDigit = true := by
  intro c hc
  obtain ⟨d, ds, he, hd⟩ := renderL_head_digit v
  rw [he] at hc
  have h2 : some d = some c := hc
  rw [Option.some.injEq] at h2
  subst h2
  exact hd

theorem renderL_ne_nil (v : Version) : renderL v ≠ [] := by
  obtain ⟨d, ds, he, _⟩ := renderL_head_digit v
  rw [he]
  simp

theorem renderL_last_not_ws {v : Version} (hb : v.Build = "")
    (hp : ∀ c ∈ v.Prerelease.data, isIdentChar c = true) :
    ∀ c, (renderL v).getLast? = some c → c.isWhitespace = false := fun c hc =>
  isIdentChar_not_ws (renderL_ident hb hp c (mem_of_getLast? hc))

theorem renderL_head_not_ws (v : Version) :
    ∀ c, (renderL v).head? = some c → c.isWhitespace = false := fun c hc =>
  isDigit_not_ws (renderL_headDigit v c hc)

theorem trimSpace_renderL {v : Version} (hb : v.Build = "")
    (hp : ∀ c ∈ v.Prerelease.data, isIdentChar c = true) :
    trimSpace (renderL v) = renderL v :=
  trimSpace_id (renderL_head_not_ws v) (renderL_last_not_ws hb hp)

theorem matchSemver_render {v : Version} (hb : v.Build = "")
    (hp : ∀ c ∈ v.Prerelease.data, isIdentChar c = true) :
    matchSemver (renderL v) = some v := by
  have h := parseL_render v hb hp
  unfold parseL at h
  rwa [normalizeL_digit (renderL_headDigit v) (renderL_last_not_ws hb hp)] at h

theorem parseL_render_eq {v : Version} (hb : v.Build = "")
    (hp : ∀ c ∈ v.Prerelease.data, isIdentChar c = true) :
    parseL (trimSpace (renderL v)) = some v := by
  rw [trimSpace_renderL hb hp]
  exact parseL_render v hb hp

theorem dropPre_pos {pfx l : List Char} (h : pfx.isPrefixOf l = true) :
    dropPre pfx l = l.drop pfx.length := by
  unfold dropPre
  rw [h]
  simp

theorem isPrefixOf_nil_left (t : List Char) : ([] : List Char).isPrefixOf t = true := by
  cases t <;> rfl

theorem isPrefixOf_cons_same (a : Char) (p t : List Char) :
    (a :: p).isPrefixOf (a :: t) = p.isPrefixOf t := by
  rw [show (a :: p).isPrefixOf (a :: t) = (a == a && p.isPrefixOf t) from rfl,
    beq_self_eq_true, Bool.true_and]

theorem isPrefixOf_cons_self (a : Char) (t : List Char) : [a].isPrefixOf (a :: t) = true := by
  rw [isPrefixOf_cons_same]
  exact isPrefixOf_nil_left t

theorem isPrefixOf_pair_self (a b : Char) (t : List Char) :
    [a, b].isPrefixOf (a :: b :: t) = true := by
  rw [isPrefixOf_cons_same, isPrefixOf_cons_same]
  exact isPrefixOf_nil_left t

theorem parseL_eq_trim {v : Version} (hb : v.Build = "")
    (hp : ∀ c ∈ v.Prerelease.data, isIdentChar c = true) :
    parseL (trimSpace ('=' :: renderL v)) = some v := by
  have htrim : trimSpace ('=' :: renderL v) = '=' :: renderL v := by
    refine trimSpace_id (fun c hc => ?_) (fun c hc => ?_)
    · have h2 : some '=' = some c := hc
      rw [Option.some.injEq] at h2
      subst h2
      decide
    · rw [show ('=' :: renderL v) = ['='] ++ renderL v from rfl,
        List.getLast?_append_of_ne_nil _ (renderL_ne_nil v)] at hc
      exact renderL_last_not_ws hb hp c hc
  rw [htrim]
  unfold parseL normalizeL
  rw [htrim,
    dropPre_id (isPrefixOf_cons_ne [] (show ('^' : Char) ≠ '=' by decide)),
    dropPre_id (isPrefixOf_cons_ne [] (show ('~' : Char) ≠ '=' by decide)),
    dropPre_id (isPrefixOf_cons_ne ['='] (show ('>' : Char) ≠ '=' by decide)),
    dropPre_id (isPrefixOf_cons_ne [] (show ('>' : Char) ≠ '=' by decide)),
    dropPre_id (isPrefixOf_cons_ne ['='] (show ('<' : Char) ≠ '=' by decide)),
    dropPre_id (isPrefixOf_cons_ne [] (show ('<' : Char) ≠ '=' by decide)),
    dropPre_pos (isPrefixOf_cons_self '=' (renderL v)),
    show List.drop (['='] : List Char).length ('=' :: renderL v) = renderL v from rfl,
    trimSpace_renderL hb hp]
  exact matchSemver_render hb hp

theorem parseL_render_space {a : Version} (hb : a.Build = "")
    (hp : ∀ c ∈ a.Prerelease.data, isIdentChar c = true) (l2 : List Char) (h2 : l2 ≠ [])
    (hl : ∀ c, l2.getLast? = some c → c.isWhitespace = false) :
    parseL (renderL a ++ ' ' :: l2) = none := by
  have h := parseL_render_tail a hb hp (' ' :: l2)
    (fun x hx => by
      have hx2 : some ' ' = some x := hx
      rw [Option.some.injEq] at hx2
      subst hx2
      exact ⟨by decide, by decide, by decide, by decide, by decide⟩)
    (fun x hx => by
      rw [show (' ' :: l2) = [' '] ++ l2 from rfl,
        List.getLast?_append_of_ne_nil _ h2] at hx
      exact hl x hx)
  rw [h]
  rfl

theorem renderL_no_space {v : Version} (hb : v.Build = "")
    (hp : ∀ c ∈ v.Prerelease.data, isIdentChar c = true) :
    ∀ c ∈ renderL v, c ≠ ' ' := by
  intro c hc he
  subst he
  have h2 := renderL_ident hb hp ' ' hc
  revert h2
  decide

theorem renderL_contains_space {v : Version} (hb : v.Build = "")
    (hp : ∀ c ∈ v.Prerelease.data, isIdentChar c = true) :
    (renderL v).contains ' ' = false := by
  rw [Bool.eq_false_iff]
  intro h
  exact renderL_no_space hb hp ' ' (List.mem_of_elem_eq_true h) rfl

theorem beq_renderL_eq_false {x : Char} (hx : x.isDigit = false) (xs : List Char)
    (v : Version) : ((x :: xs) == renderL v) = false := by
  obtain ⟨d, ds, he, hd⟩ := renderL_head_digit v
  rw [he, show ((x :: xs) == (d :: ds)) = ((x == d) && (xs == ds)) from rfl,
    beq_eq_false_iff_ne.mpr (Ne.symm (isDigit_ne hd hx)), Bool.false_and]

theorem isPrefixOf_renderL_eq_false {x : Char} (hx : x.isDigit = false) (p : List Char)
    (v : Version) : (x :: p).isPrefixOf (renderL v) = false := by
  obtain ⟨d, ds, he, hd⟩ := renderL_head_digit v
  rw [he]
  exact isPrefixOf_cons_ne p (Ne.symm (isDigit_ne hd hx))

theorem renderL_inj {b v : Version} (hbb : b.Build = "")
    (hbp : ∀ c ∈ b.Prerelease.data, isIdentChar c = true) (hvb : v.Build = "")
    (hvp : ∀ c ∈ v.Prerelease.data, isIdentChar c = true)
    (he : renderL b = renderL v) : b = v := by
  have h1 := parseL_render b hbb hbp
  rw [he, parseL_render v hvb hvp, Option.some.injEq] at h1
  exact h1.symm

theorem rangeMatches_lt {v b : Version} (hbb : b.Build = "")
    (hbp : ∀ c ∈ b.Prerelease.data, isIdentChar c = true) :
    rangeMatches v (String.mk ('<' :: renderL b)) = decide (Compare v b < 0) := by
  unfold rangeMatches
  rw [show (String.mk ('<' :: renderL b)).data = '<' :: renderL b from rfl,
    beq_renderL_eq_false (show ('<' : Char).isDigit = false by decide) _ v,
    show ('<' :: renderL b).drop 1 = renderL b from rfl,
    parseL_render_eq hbb hbp,
    isPrefixOf_cons_self '<' (renderL b),
    isPrefixOf_cons_same '<' ['='] (renderL b),
    isPrefixOf_renderL_eq_false (show ('=' : Char).isDigit = false by decide) [] b,
    isPrefixOf_cons_ne ['='] (show ('>' : Char) ≠ '<' by decide),
    isPrefixOf_cons_ne [] (show ('>' : Char) ≠ '<' by decide),
    List.contains_cons,
    beq_eq_false_iff_ne.mpr (show (' ' : Char) ≠ '<' by decide),
    renderL_contains_space hbb hbp]
  simp

theorem rangeMatches_le {v b : Version} (hbb : b.Build = "")
    (hbp : ∀ c ∈ b.Prerelease.data, isIdentChar c = true) :
    rangeMatches v (String.mk ('<' :: '=' :: renderL b)) = decide (Compare v b ≤ 0) := by
  have hor : (decide (Compare v b < 0) || decide (Compare v b ≤ 0)) =
      decide (Compare v b ≤ 0) := by
    by_cases h : Compare v b < 0
    · rw [decide_eq_true h, decide_eq_true (le_of_lt h), Bool.true_or]
    · rw [decide_eq_false h, Bool.false_or]
  unfold rangeMatches
  rw [show (String.mk ('<' :: '=' :: renderL b)).data = '<' :: '=' :: renderL b from rfl,
    beq_renderL_eq_false (show ('<' : Char).isDigit = false by decide) _ v,
    show ('<' :: '=' :: renderL b).drop 1 = '=' :: renderL b from rfl,
    show ('<' :: '=' :: renderL b).drop 2 = renderL b from rfl,
    parseL_eq_trim hbb hbp,
    parseL_render_eq hbb hbp,
    isPrefixOf_cons_self '<' ('=' :: renderL b),
    isPrefixOf_pair_self '<' '=' (renderL b),
    isPrefixOf_cons_ne ['='] (show ('>' : Char) ≠ '<' by decide),
    isPrefixOf_cons_ne [] (show ('>' : Char) ≠ '<' by decide),
    List.contains_cons, List.contains_cons,
    beq_eq_false_iff_ne.mpr (show (' ' : Char) ≠ '<' by decide),
    beq_eq_false_iff_ne.mpr (show (' ' : Char) ≠ '=' by decide),
    renderL_contains_space hbb hbp]
  simp [hor]

theorem rangeMatches_ge {v b : Version} (hbb : b.Build = "")
    (hbp : ∀ c ∈ b.Prerelease.data, isIdentChar c = true) :
    rangeMatches v (String.mk ('>' :: '=' :: renderL b)) = decide (Compare v b ≥ 0) := by
  unfold rangeMatches
  rw [show (String.mk ('>' :: '=' :: renderL b)).data = '>' :: '=' :: renderL b from rfl,
    beq_renderL_eq_false (show ('>' : Char).isDigit = false by decide) _ v,
    show ('>' :: '=' :: renderL b).drop 2 = renderL b from rfl,
    parseL_render_eq hbb hbp,
    isPrefixOf_cons_ne [] (show ('<' : Char) ≠ '>' by decide),
    isPrefixOf_cons_ne ['='] (show ('<' : Char) ≠ '>' by decide),
    isPrefixOf_pair_self '>' '=' (renderL b),
    isPrefixOf_cons_self '>' ('=' :: renderL b),
    List.contains_cons, List.contains_cons,
    beq_eq_false_iff_ne.mpr (show (' ' : Char) ≠ '>' by decide),
    beq_eq_false_iff_ne.mpr (show (' ' : Char) ≠ '=' by decide),
    renderL_contains_space hbb hbp]
  simp

theorem rangeMatches_gt {v b : Version} (hbb : b.Build = "")
    (hbp : ∀ c ∈ b.Prerelease.data, isIdentChar c = true) :
    rangeMatches v (String.mk ('>' :: renderL b)) = decide (Compare v b > 0) := by
  unfold rangeMatches
  rw [show (String.mk ('>' :: renderL b)).data = '>' :: renderL b from rfl,
    beq_renderL_eq_false (show ('>' : Char).isDigit = false by decide) _ v,
    show ('>' :: renderL b).drop 1 = renderL b from rfl,
    parseL_render_eq hbb hbp,
    isPrefixOf_cons_ne [] (show ('<' : Char) ≠ '>' by decide),
    isPrefixOf_cons_ne ['='] (show ('<' : Char) ≠ '>' by decide),
    isPrefixOf_cons_same '>' ['='] (renderL b),
    isPrefixOf_renderL_eq_false (show ('=' : Char).isDigit = false by decide) [] b,
    isPrefixOf_cons_self '>' (renderL b),
    List.contains_cons,
    beq_eq_false_iff_ne.mpr (show (' ' : Char) ≠ '>' by decide),
    renderL_contains_space hbb hbp]
  simp

theorem rangeMatches_exact {v b : Version} (hvb : v.Build = "")
    (hvp : ∀ c ∈ v.Prerelease.data, isIdentChar c = true) (hbb : b.Build = "")
    (hbp : ∀ c ∈ b.Prerelease.data, isIdentChar c = true) :
    rangeMatches v (String.mk (renderL b)) = decide (b = v) := by
  have hbeq : ((renderL b) == renderL v) = decide (b = v) := by
    by_cases h : b = v
    · subst h
      rw [decide_eq_true rfl, beq_self_eq_true]
    · rw [decide_eq_false h,
        beq_eq_false_iff_ne.mpr (fun he => h (renderL_inj hbb hbp hvb hvp he))]
  unfold rangeMatches
  rw [show (String.mk (renderL b)).data = renderL b from rfl,
    hbeq,
    isPrefixOf_renderL_eq_false (show ('<' : Char).isDigit = false by decide) [] b,
    isPrefixOf_renderL_eq_false (show ('<' : Char).isDigit = false by decide) ['='] b,
    isPrefixOf_renderL_eq_false (show ('>' : Char).isDigit = false by decide) ['='] b,
    isPrefixOf_renderL_eq_false (show ('>' : Char).isDigit = false by decide) [] b,
    renderL_contains_space hbb hbp]
  simp

theorem rangeMatches_pair {v a b : Version} (hab : a.Build = "")
    (hap : ∀ c ∈ a.Prerelease.data, isIdentChar c = true) (hbb : b.Build = "")
    (hbp : ∀ c ∈ b.Prerelease.data, isIdentChar c = true) :
    rangeMatches v (String.mk ('>' :: '=' :: (renderL a ++ ' ' :: '<' :: renderL b))) =
      (decide (Compare v a ≥ 0) && decide (Compare v b < 0)) := by
  obtain ⟨da, dsa, hea, hda⟩ := renderL_head_digit a
  have hno1 : ∀ c ∈ ('>' :: '=' :: renderL a), c ≠ ' ' := by
    intro c hc
    rcases List.mem_cons.mp hc with rfl | hc
    · decide
    · rcases List.mem_cons.mp hc with rfl | hc
      · decide
      · exact renderL_no_space hab hap c hc
  have hno2 : ∀ c ∈ ('<' :: renderL b), c ≠ ' ' := by
    intro c hc
    rcases List.mem_cons.mp hc with rfl | hc
    · decide
    · exact renderL_no_space hbb hbp c hc
  have hsplit : splitOnSpace ('>' :: '=' :: (renderL a ++ ' ' :: '<' :: renderL b)) =
      [('>' :: '=' :: renderL a), ('<' :: renderL b)] := by
    rw [show ('>' :: '=' :: (renderL a ++ ' ' :: '<' :: renderL b)) =
        ('>' :: '=' :: renderL a) ++ ' ' :: ('<' :: renderL b) from rfl,
      splitOnSpace_sep _ hno1, splitOnSpace_nospace hno2]
  have hlastb : ∀ c, ('<' :: renderL b).getLast? = some c → c.isWhitespace = false := by
    intro c hc
    rw [show ('<' :: renderL b) = ['<'] ++ renderL b from rfl,
      List.getLast?_append_of_ne_nil _ (renderL_ne_nil b)] at hc
    exact renderL_last_not_ws hbb hbp c hc
  have htrimD : trimSpace (renderL a ++ ' ' :: '<' :: renderL b) =
      renderL a ++ ' ' :: '<' :: renderL b := by
    refine trimSpace_id (fun c hc => ?_) (fun c hc => ?_)
    · rw [hea, List.cons_append] at hc
      have h2 : some da = some c := hc
      rw [Option.some.injEq] at h2
      subst h2
      exact isDigit_not_ws hda
    · rw [List.getLast?_append_of_ne_nil _ (by simp),
        show (' ' :: '<' :: renderL b : List Char) = [' ', '<'] ++ renderL b from rfl,
        List.getLast?_append_of_ne_nil _ (renderL_ne_nil b)] at hc
      exact renderL_last_not_ws hbb hbp c hc
  have hD : parseL (trimSpace
      (('>' :: '=' :: (renderL a ++ ' ' :: '<' :: renderL b)).drop 2)) = none := by
    rw [show ('>' :: '=' :: (renderL a ++ ' ' :: '<' :: renderL b)).drop 2 =
        renderL a ++ ' ' :: '<' :: renderL b from rfl,
      htrimD]
    exact parseL_render_space hab hap ('<' :: renderL b) (by simp) hlastb
  have hcont : ('>' :: '=' :: (renderL a ++ ' ' :: '<' :: renderL b)).contains ' ' = true := by
    rw [List.contains_cons, List.contains_cons,
      show (renderL a ++ ' ' :: '<' :: renderL b).contains ' ' = true from
        List.elem_eq_true_of_mem (by simp)]
    simp
  unfold rangeMatches
  rw [show (String.mk ('>' :: '=' :: (renderL a ++ ' ' :: '<' :: renderL b))).data =
      '>' :: '=' :: (renderL a ++ ' ' :: '<' :: renderL b) from rfl,
    beq_renderL_eq_false (show ('>' : Char).isDigit = false by decide) _ v,
    isPrefixOf_cons_ne [] (show ('<' : Char) ≠ '>' by decide),
    isPrefixOf_cons_ne ['='] (show ('<' : Char) ≠ '>' by decide),
    isPrefixOf_pair_self '>' '=' (renderL a ++ ' ' :: '<' :: renderL b),
    isPrefixOf_cons_self '>' ('=' :: (renderL a ++ ' ' :: '<' :: renderL b)),
    hD, hcont, hsplit]
  simp [isPrefixOf_cons_same, isPrefixOf_cons_self, isPrefixOf_pair_self,
    isPrefixOf_nil_left,
    isPrefixOf_renderL_eq_false (show ('=' : Char).isDigit = false by decide) [] b,
    show ('>' :: '=' :: renderL a).drop 2 = renderL a from rfl,
    show ('<' :: renderL b).drop 1 = renderL b from rfl,
    parseL_render_eq hab hap, parseL_render_eq hbb hbp]

/-- C7: a version is affected iff it matches at least one comparator
string in the list (first conjunct: the loop is OR across entries). A
two-comparator entry `>=a <b` requires both comparators to hold (AND
within an entry); single-comparator entries `<b`, `<=b`, `>=b`, `>b` and
bare-version entries are each evaluated by their single obvious predicate;
an entry that fails to parse matches nothing and does not abort
evaluation of the remaining entries. Concretely: 1.5.0 matches
[">=1.0.0 <2.0.0"], 2.0.0 does not, 1.2.3 matches
["<1.0.0", ">=1.2.0 <1.3.0"], "not a version" matches nothing, and a
list with one unparseable string and one valid matching string still
reports affected. -/
theorem comparator_strings_spec (v a b : Version) (l : List String)
    (hvb : v.Build = "") (hvp : v.Prerelease.data.all isIdentChar = true)
    (hab : a.Build = "") (hap : a.Prerelease.data.all isIdentChar = true)
    (hbb : b.Build = "") (hbp : b.Prerelease.data.all isIdentChar = true) :
    isVersionVulnerable v l = l.any (rangeMatches v) ∧
    rangeMatches v (String.mk (renderL b)) = decide (b = v) ∧
    rangeMatches v (String.mk ('<' :: renderL b)) = decide (Compare v b < 0) ∧
    rangeMatches v (String.mk ('<' :: '=' :: renderL b)) = decide (Compare v b ≤ 0) ∧
    rangeMatches v (String.mk ('>' :: '=' :: renderL b)) = decide (Compare v b ≥ 0) ∧
    rangeMatches v (String.mk ('>' :: renderL b)) = decide (Compare v b > 0) ∧
    rangeMatches v (String.mk ('>' :: '=' :: (renderL a ++ ' ' :: '<' :: renderL b))) =
      (decide (Compare v a ≥ 0) && decide (Compare v b < 0)) ∧
    isVersionVulnerable ⟨1, 5, 0, "", ""⟩ [">=1.0.0 <2.0.0"] = true ∧
    isVersionVulnerable ⟨2, 0, 0, "", ""⟩ [">=1.0.0 <2.0.0"] = false ∧
    isVersionVulnerable ⟨1, 2, 3, "", ""⟩ ["<1.0.0", ">=1.2.0 <1.3.0"] = true ∧
    rangeMatches ⟨1, 2, 3, "", ""⟩ "not a version" = false ∧
    isVersionVulnerable ⟨1, 2, 3, "", ""⟩ ["not a version", "<2.0.0"] = true := by
  have hvp2 := List.all_eq_true.mp hvp
  have hap2 := List.all_eq_true.mp hap
  have hbp2 := List.all_eq_true.mp hbp
  exact ⟨isVersionVulnerable_any v l,
    rangeMatches_exact hvb hvp2 hbb hbp2,
    rangeMatches_lt hbb hbp2,
    rangeMatches_le hbb hbp2,
    rangeMatches_ge hbb hbp2,
    rangeMatches_gt hbb hbp2,
    rangeMatches_pair hab hap2 hbb hbp2,
    by decide, by decide, by decide, by decide, by decide⟩

theorem comparator_strings_spec_w :
    isVersionVulnerable ⟨1, 0, 0, "", ""⟩ ["<2.0.0"] =
      (["<2.0.0"] : List String).any (rangeMatches ⟨1, 0, 0, "", ""⟩) ∧
    rangeMatches ⟨1, 0, 0, "", ""⟩ (String.mk (renderL ⟨2, 0, 0, "", ""⟩)) =
      decide ((⟨2, 0, 0, "", ""⟩ : Version) = ⟨1, 0, 0, "", ""⟩) ∧
    rangeMatches ⟨1, 0, 0, "", ""⟩ (String.mk ('<' :: renderL ⟨2, 0, 0, "", ""⟩)) =
      decide (Compare ⟨1, 0, 0, "", ""⟩ ⟨2, 0, 0, "", ""⟩ < 0) ∧
    rangeMatches ⟨1, 0, 0, "", ""⟩ (String.mk ('<' :: '=' :: renderL ⟨2, 0, 0, "", ""⟩)) =
      decide (Compare ⟨1, 0, 0, "", ""⟩ ⟨2, 0, 0, "", ""⟩ ≤ 0) ∧
    rangeMatches ⟨1, 0, 0, "", ""⟩ (String.mk ('>' :: '=' :: renderL ⟨2, 0, 0, "", ""⟩)) =
      decide (Compare ⟨1, 0, 0, "", ""⟩ ⟨2, 0, 0, "", ""⟩ ≥ 0) ∧
    rangeMatches ⟨1, 0, 0, "", ""⟩ (String.mk ('>' :: renderL ⟨2, 0, 0, "", ""⟩)) =
      decide (Compare ⟨1, 0, 0, "", ""⟩ ⟨2, 0, 0, "", ""⟩ > 0) ∧
    rangeMatches ⟨1, 0, 0, "", ""⟩ (String.mk ('>' :: '=' ::
        (renderL ⟨0, 9, 0, "", ""⟩ ++ ' ' :: '<' :: renderL ⟨2, 0, 0, "", ""⟩))) =
      (decide (Compare ⟨1, 0, 0, "", ""⟩ ⟨0, 9, 0, "", ""⟩ ≥ 0) &&
        decide (Compare ⟨1, 0, 0, "", ""⟩ ⟨2, 0, 0, "", ""⟩ < 0)) ∧
    isVersionVulnerable ⟨1, 5, 0, "", ""⟩ [">=1.0.0 <2.0.0"] = true ∧
    isVersionVulnerable ⟨2, 0, 0, "", ""⟩ [">=1.0.0 <2.0.0"] = false ∧
    isVersionVulnerable ⟨1, 2, 3, "", ""⟩ ["<1.0.0", ">=1.2.0 <1.3.0"] = true ∧
    rangeMatches ⟨1, 2, 3, "", ""⟩ "not a version" = false ∧
    isVersionVulnerable ⟨1, 2, 3, "", ""⟩ ["not a version", "<2.0.0"] = true :=
  comparator_strings_spec ⟨1, 0, 0, "", ""⟩ ⟨0, 9, 0, "", ""⟩ ⟨2, 0, 0, "", ""⟩
    ["<2.0.0"] rfl (by decide) rfl (by decide) rfl (by decide)
